import Mathlib

/-!
Verification of the ComparIA dashboard data engine (label parsing, matrix→long
reshaping, derived environmental metrics, KPI aggregation, min/max extraction).

The engine is embedded shallowly:
* JavaScript strings are `List Char` (`Str`), so that suffix matching,
  `split(':')` and concatenation can be reasoned about structurally.
* JavaScript numbers are `JsNum`: either a finite rational or one of the IEEE
  specials `+Infinity`, `-Infinity`, `NaN`.  The engine code only ever performs
  arithmetic through the operations modelled below (multiplication/division by
  a finite constant, `Math.round`), whose IEEE special-value behaviour is
  encoded case by case.  Finite arithmetic is modelled exactly over `ℚ`.
* JavaScript `Map`/`Set` (insertion ordered) are association lists with a
  position-preserving `set` and a membership-guarded `add`.
-/

namespace ComparIA

/-- JavaScript strings, modelled as lists of characters. -/
abbrev Str := List Char

/-- A JavaScript number: a finite rational or an IEEE special value. -/
inductive JsNum where
  | num (q : ℚ)
  | posInf
  | negInf
  | nan
deriving DecidableEq

namespace JsNum

/-- JavaScript `isNaN(v)` for a value already of number type. -/
def isNaNb : JsNum → Bool
  | .nan => true
  | _ => false

/-- JavaScript `isFinite(v)` / `Number.isFinite(v)` for a number. -/
def isFiniteb : JsNum → Bool
  | .num _ => true
  | _ => false

/-- The finite value of a number, if any.  `finVal v = some q` exactly when
`!isNaN(v) && isFinite(v)` holds, in which case `q` is its rational value. -/
def finVal : JsNum → Option ℚ
  | .num q => some q
  | _ => none

end JsNum

/-- IEEE multiplication of a JavaScript number by a finite constant `b`
(`Infinity * 0` is `NaN`, signs propagate, `NaN` is absorbing). -/
def jsMulQ (a : JsNum) (b : ℚ) : JsNum :=
  match a with
  | .nan => .nan
  | .posInf => if 0 < b then .posInf else if b < 0 then .negInf else .nan
  | .negInf => if 0 < b then .negInf else if b < 0 then .posInf else .nan
  | .num q => .num (q * b)

/-- IEEE division of a JavaScript number by a finite constant `b`
(division by `0` — JavaScript's `+0` — yields a signed infinity, `0/0` is
`NaN`, `NaN` is absorbing). -/
def jsDivQ (a : JsNum) (b : ℚ) : JsNum :=
  match a with
  | .nan => .nan
  | .posInf => if b < 0 then .negInf else .posInf
  | .negInf => if b < 0 then .posInf else .negInf
  | .num q =>
    if b = 0 then
      if 0 < q then .posInf else if q < 0 then .negInf else .nan
    else .num (q / b)

/-- JavaScript `Math.round`: round half towards `+∞` (`⌊x + 1/2⌋`), which is
Mathlib's `round` on `ℚ`; the special values are fixed points. -/
def jsRound : JsNum → JsNum
  | .num q => .num (round q : ℤ)
  | .posInf => .posInf
  | .negInf => .negInf
  | .nan => .nan

/-- The whitespace test used by JavaScript `String.prototype.trim`
(restricted to the ASCII whitespace characters and NBSP; the engine's labels
never contain other Unicode space separators). -/
def jsWhitespace (c : Char) : Bool :=
  c = ' ' ∨ c = '\t' ∨ c = '\n' ∨ c = '\x0b' ∨ c = '\x0c' ∨ c = '\r' ∨ c = ' '

/-- JavaScript `s.trim()`: drop whitespace from both ends. -/
def jsTrim (s : Str) : Str :=
  ((s.dropWhile jsWhitespace).reverse.dropWhile jsWhitespace).reverse

/-- JavaScript `s.toLowerCase()` (ASCII case mapping). -/
def jsToLower (s : Str) : Str :=
  s.map Char.toLower

/-- JavaScript `s.split(sep)` for a single-character separator:
`"a::b".split(':') = ["a", "", "b"]`, `"".split(':') = [""]`. -/
def jsSplit (sep : Char) : Str → List Str
  | [] => [[]]
  | c :: rest =>
    if c = sep then [] :: jsSplit sep rest
    else
      match jsSplit sep rest with
      | [] => [[c]]
      | seg :: segs => (c :: seg) :: segs

/-! ### Metric-name constants (string literals of the source) -/

def qualityM : Str := ("quality").toList
def latencyM : Str := ("latency_s").toList
def energyM : Str := ("energy_wh").toList
def co2M : Str := ("co2_g").toList
def ledHoursM : Str := ("led_hours").toList
def onlinevideoM : Str := ("onlinevideo_min").toList

/-- The key `'led_minutes'` used by `addDerivedMetrics` (note: this string is
not a member of `SUPPORTED_METRICS`). -/
def ledMinutesM : Str := ("led_minutes").toList

/-- `SUPPORTED_METRICS` from `lib/parse.ts` — the closed metric enumeration,
in its declaration order. -/
def SUPPORTED_METRICS : List Str :=
  [qualityM, latencyM, energyM, co2M, ledHoursM, onlinevideoM]

/-! ### Data model (`types.ts`) -/

/-- `LongRow`: one normalized (model, prompt, metric, value) record.  The
`metric` field is kept as a string so that the strings the code actually
stores (including `'led_minutes'`) are representable. -/
structure LongRow where
  model : Str
  prompt : Str
  metric : Str
  value : JsNum
deriving DecidableEq

/-- `MatrixRow`: a raw wide-format row, `values` being the prompt→cell record
in property order (`Object.entries` order), each cell `number | null`. -/
structure MatrixRow where
  metricLabel : Str
  values : List (Str × Option JsNum)

/-- `ParsedMetricLabel`. -/
structure ParsedMetricLabel where
  model : Str
  metric : Str
deriving DecidableEq

/-- `Factors`: the conversion-factor configuration.  The three fields are
finite numbers (the UI panel supplies plain numeric literals). -/
structure Factors where
  ledBulbWatts : ℚ
  gridIntensityGCO2PerKwh : ℚ
  onlineVideoWhPerMin : ℚ

/-- `DEFAULT_FACTORS` from `types.ts`. -/
def DEFAULT_FACTORS : Factors :=
  { ledBulbWatts := 7, gridIntensityGCO2PerKwh := 300, onlineVideoWhPerMin := 9 / 10 }

/-- `KpiData`: the KPI summary; `none` models `null`. -/
structure KpiData where
  meanQuality : Option ℚ
  meanLatency : Option ℚ
  p95Latency : Option ℚ
  meanEnergy : Option ℚ
  totalEnergy : Option ℚ
  qualityPerWh : Option ℚ
deriving DecidableEq

/-! ### Label parser (`lib/parse.ts`) -/

/-- One suffix attempt of `parseMetricLabel`: if `trimmed` ends with
`sep :: metric` and the remainder before the suffix (`slice(0, -len)`) is
non-empty, produce the parse; otherwise fall through (`none`). -/
def trySuffix (trimmed : Str) (sep : Char) (metric : Str) : Option ParsedMetricLabel :=
  let metricSuffix := sep :: metric
  if metricSuffix.isSuffixOf trimmed then
    let model := trimmed.take (trimmed.length - metricSuffix.length)
    if model = [] then none else some ⟨model, metric⟩
  else none

/-- The `for (const metric of SUPPORTED_METRICS)` loop body of
`parseMetricLabel`: for each metric in order, try the `'_'` suffix, then the
`'-'` suffix, then move to the next metric. -/
def parseLoop (trimmed : Str) : List Str → Option ParsedMetricLabel
  | [] => none
  | metric :: rest =>
    match trySuffix trimmed '_' metric with
    | some r => some r
    | none =>
      match trySuffix trimmed '-' metric with
      | some r => some r
      | none => parseLoop trimmed rest

/-- `parseMetricLabel` from `lib/parse.ts`. -/
def parseMetricLabel (metricLabel : Str) : Option ParsedMetricLabel :=
  let trimmed := jsToLower (jsTrim metricLabel)
  if trimmed = [] then none
  else parseLoop trimmed SUPPORTED_METRICS

/-! ### Matrix→long reshaper (`lib/transform.ts`, `matrixToLong`) -/

/-- The `Object.entries(row.values).forEach` body of `matrixToLong`: for each
prompt→value cell push a `LongRow` when the cell is non-null
(`value !== null`) and not `NaN` (`!isNaN(value)`). -/
def reshapeRow (parsed : ParsedMetricLabel) (values : List (Str × Option JsNum)) :
    List LongRow :=
  values.filterMap (fun pv =>
    match pv.2 with
    | some value =>
      if value.isNaNb then none
      else some ⟨parsed.model, pv.1, parsed.metric, value⟩
    | none => none)

/-- One row step of `matrixToLong`: parse the label, skip the row when
unparseable, else append the row's reshaped records. -/
def matrixStep (longData : List LongRow) (row : MatrixRow) : List LongRow :=
  match parseMetricLabel row.metricLabel with
  | none => longData
  | some parsed => longData ++ reshapeRow parsed row.values

/-- `matrixToLong` from `lib/transform.ts`. -/
def matrixToLong (matrixData : List MatrixRow) : List LongRow :=
  matrixData.foldl matrixStep []

/-! ### Ordered maps and sets (JavaScript `Map` / `Set` semantics) -/

/-- Association-list lookup (`Map.get`): first entry with the given key. -/
def lookupL {β : Type} (m : List (Str × β)) (k : Str) : Option β :=
  (m.find? (fun p => decide (p.1 = k))).map (·.2)

/-- `Map.set`: replace the value at an existing key in place (the entry keeps
its insertion position), or append a fresh entry at the end. -/
def mapSet {β : Type} (m : List (Str × β)) (k : Str) (v : β) : List (Str × β) :=
  if m.any (fun p => decide (p.1 = k)) then
    m.map (fun p => if p.1 = k then (k, v) else p)
  else m ++ [(k, v)]

/-- `Set.add`: append the element unless already present. -/
def setAdd (s : List Str) (k : Str) : List Str :=
  if k ∈ s then s else s ++ [k]

/-- The insertion-ordered list of distinct elements (a JavaScript `Set` built
by iterating the list, read back with `Array.from`). -/
def dedupFirst (l : List Str) : List Str :=
  l.foldl (fun acc x => if x ∈ acc then acc else acc ++ [x]) []

/-! ### Aggregation engine (`lib/stats.ts`) -/

/-- `values.reduce((a, b) => a + b, 0)`. -/
def qsum (l : List ℚ) : ℚ := l.foldl (· + ·) 0

/-- Arithmetic mean `sum / length`. -/
def qmean (l : List ℚ) : ℚ := qsum l / l.length

/-- Insert into an ascending-sorted list. -/
def insertSorted (x : ℚ) : List ℚ → List ℚ
  | [] => [x]
  | y :: ys => if x ≤ y then x :: y :: ys else y :: insertSorted x ys

/-- `[...values].sort((a, b) => a - b)`: the ascending reordering of the list
(unique for numbers, so any correct sort embeds it). -/
def sortAsc (l : List ℚ) : List ℚ := l.foldr insertSorted []

/-- `calculateSum`: `null` on an empty input or when no value is a finite
non-`NaN` number, else the sum of the valid values. -/
def calculateSum (values : List JsNum) : Option ℚ :=
  if values = [] then none
  else
    let validValues := values.filterMap JsNum.finVal
    if validValues = [] then none
    else some (qsum validValues)

/-- `calculateP95`: nearest-rank 95th percentile of the valid values —
sort ascending, take index `ceil(n * 0.95) - 1` (lower-clamped by
`Math.max(0, ·)`; the index is provably `< n`, so the array access of the
source never yields `undefined` and the `getD` default is never read). -/
def calculateP95 (values : List JsNum) : Option ℚ :=
  if values = [] then none
  else
    let validValues := values.filterMap JsNum.finVal
    if validValues = [] then none
    else
      let sorted := sortAsc validValues
      let index : ℤ := ⌈(sorted.length : ℚ) * ((95 : ℚ) / 100)⌉ - 1
      some (sorted.getD (max 0 index).toNat 0)

/-- Result of `calculatePerModelAverages`. -/
structure ModelAveragesResult where
  perModelAverages : List (Str × ℚ)
  macroAverage : Option ℚ
deriving DecidableEq

/-- The `byModel` grouping pass of `calculatePerModelAverages`: rows of the
wrong metric or with a non-finite value are skipped; each kept value is
appended to its model's bucket (`byModel.get(model) ?? []`, push, set). -/
def groupByModel (longData : List LongRow) (metric : Str) : List (Str × List ℚ) :=
  longData.foldl
    (fun byModel row =>
      if row.metric = metric then
        match row.value.finVal with
        | some q => mapSet byModel row.model ((lookupL byModel row.model).getD [] ++ [q])
        | none => byModel
      else byModel)
    []

/-- `calculatePerModelAverages`: per-model arithmetic means (in grouping
insertion order) and their unweighted macro average. -/
def calculatePerModelAverages (longData : List LongRow) (metric : Str) : ModelAveragesResult :=
  let byModel := groupByModel longData metric
  let entries := byModel.filter (fun p => 0 < p.2.length)
  let perModelAverages := entries.map (fun p => (p.1, qmean p.2))
  let validMeans := entries.map (fun p => qmean p.2)
  let macroAverage := if 0 < validMeans.length then some (qmean validMeans) else none
  ⟨perModelAverages, macroAverage⟩

/-- `Math.round(x * s) / s` — the source's rounding to `2`/`3`/`4` decimal
places with `s = 100`/`1000`/`10000`. -/
def roundS (s : ℚ) (x : ℚ) : ℚ := (round (x * s) : ℤ) / s

/-- The insertion-ordered distinct models of a relation
(`new Set(longData.map(r => r.model))`). -/
def uniqueModelsOrdered (longData : List LongRow) : List Str :=
  dedupFirst (longData.map (·.model))

/-- `calculateKpis` from `lib/stats.ts`. -/
def calculateKpis (longData : List LongRow) : KpiData :=
  let uniqueModels := uniqueModelsOrdered longData
  let useMacroAverage := 1 < uniqueModels.length
  let qualityData := calculatePerModelAverages longData qualityM
  let latencyData := calculatePerModelAverages longData latencyM
  let energyData := calculatePerModelAverages longData energyM
  let meanQuality :=
    if useMacroAverage then qualityData.macroAverage
    else
      match uniqueModels.head? with
      | some singleModel => lookupL qualityData.perModelAverages singleModel
      | none => none
  let meanLatency :=
    if useMacroAverage then latencyData.macroAverage
    else
      match uniqueModels.head? with
      | some singleModel => lookupL latencyData.perModelAverages singleModel
      | none => none
  let meanEnergy :=
    if useMacroAverage then energyData.macroAverage
    else
      match uniqueModels.head? with
      | some singleModel => lookupL energyData.perModelAverages singleModel
      | none => none
  let latencyValues := (longData.filter (fun row => decide (row.metric = latencyM))).map (·.value)
  let energyValues := (longData.filter (fun row => decide (row.metric = energyM))).map (·.value)
  let p95Latency := calculateP95 latencyValues
  let totalEnergy := calculateSum energyValues
  let qualityPerWh : Option ℚ :=
    match meanQuality, meanEnergy with
    | some q, some e => if 0 < e then some (q / e) else none
    | _, _ => none
  { meanQuality := meanQuality.map (roundS 100)
    meanLatency := meanLatency.map (roundS 1000)
    p95Latency := p95Latency.map (roundS 1000)
    meanEnergy := meanEnergy.map (roundS 10000)
    totalEnergy := totalEnergy.map (roundS 10000)
    qualityPerWh := qualityPerWh.map (roundS 100) }

/-- `Math.min(acc, q)` for a finite `q` against the running accumulator
(which starts at `Infinity`). -/
def jsMinQ (acc : JsNum) (q : ℚ) : JsNum :=
  match acc with
  | .num p => .num (min p q)
  | .posInf => .num q
  | .negInf => .negInf
  | .nan => .nan

/-- `Math.max(acc, q)` for a finite `q` against the running accumulator
(which starts at `-Infinity`). -/
def jsMaxQ (acc : JsNum) (q : ℚ) : JsNum :=
  match acc with
  | .num p => .num (max p q)
  | .posInf => .posInf
  | .negInf => .num q
  | .nan => .nan

/-- The cell step of the `getMinMax` loop body: update both accumulators on
a finite non-`NaN` cell (`!isNaN(value) && isFinite(value)`), skip the cell
otherwise. -/
def minMaxStep (acc : JsNum × JsNum) (value : JsNum) : JsNum × JsNum :=
  match value.finVal with
  | some q => (jsMinQ acc.1 q, jsMaxQ acc.2 q)
  | none => acc

/-- `getMinMax`: fold `Math.min`/`Math.max` over the finite non-`NaN` cells
starting from `(Infinity, -Infinity)`; the source's final test
`min === Infinity || max === -Infinity` is exactly "either accumulator is not
a finite number" (each accumulator only ever holds its initial infinity or a
finite number), in which case the default `{min: 0, max: 1}` is returned. -/
def getMinMax (values : List (List JsNum)) : ℚ × ℚ :=
  let fin :=
    values.foldl (fun acc row => row.foldl minMaxStep acc) (JsNum.posInf, JsNum.negInf)
  match fin.1, fin.2 with
  | .num mn, .num mx => (mn, mx)
  | _, _ => (0, 1)

/-! ### Derived-metrics synthesizer (`lib/transform.ts`, `addDerivedMetrics`) -/

/-- The `(model, prompt)` key string `` `${row.model}:${row.prompt}` ``. -/
def keyOf (r : LongRow) : Str := r.model ++ ':' :: r.prompt

/-- The derived-metric keys tracked by the `existingMetrics` set:
`['co2_g', 'led_minutes', 'onlinevideo_min']`. -/
def trackedDerived : List Str := [co2M, ledMinutesM, onlinevideoM]

/-- The `energyMap` update of one `longData.forEach` step of
`addDerivedMetrics`: `energy_wh` rows set their key's value (later rows
overwrite). -/
def energyStep (em : List (Str × JsNum)) (row : LongRow) : List (Str × JsNum) :=
  if row.metric = energyM then mapSet em (keyOf row) row.value else em

/-- The `existingMetrics` update of one `longData.forEach` step: rows whose
metric is one of `['co2_g', 'led_minutes', 'onlinevideo_min']` add their
`` `${key}:${metric}` `` string to the set. -/
def existingStep (ex : List Str) (row : LongRow) : List Str :=
  if row.metric ∈ trackedDerived then setAdd ex (keyOf row ++ ':' :: row.metric) else ex

/-- The single `longData.forEach` pass of `addDerivedMetrics` that builds
`energyMap` (key → `energy_wh` value, later rows overwriting) and
`existingMetrics` (the set of `` `${key}:${metric}` `` strings for the
tracked derived kinds). -/
def buildMaps (longData : List LongRow) : List (Str × JsNum) × List Str :=
  longData.foldl
    (fun maps row => (energyStep maps.1 row, existingStep maps.2 row))
    ([], [])

/-- The `derivedMetrics` array computed for one energy reading. -/
def derivedList (factors : Factors) (energyWh : JsNum) : List (Str × JsNum) :=
  [(co2M, jsMulQ (jsDivQ energyWh 1000) factors.gridIntensityGCO2PerKwh),
   (ledMinutesM, jsMulQ (jsDivQ energyWh factors.ledBulbWatts) 60),
   (onlinevideoM, jsDivQ energyWh factors.onlineVideoWhPerMin)]

/-- `Math.round(value * 1000) / 1000` — round to 3 decimal places. -/
def round3 (v : JsNum) : JsNum := jsDivQ (jsRound (jsMulQ v 1000)) 1000

/-- The `derivedMetrics.forEach` body for one derived metric `dm`: when
`override || !existingMetrics.has(metricKey)`, first (under override) splice
out the first record matching the `(model, prompt, metric)` triple
(`findIndex` + `splice(i, 1)`), then push the rounded computed record. -/
def entryStep (overrideWithDerived : Bool) (existingMetrics : List Str)
    (key model prompt : Str) (result : List LongRow) (dm : Str × JsNum) : List LongRow :=
  let metricKey := key ++ ':' :: dm.1
  if overrideWithDerived = true ∨ metricKey ∉ existingMetrics then
    (if overrideWithDerived then
      result.eraseP
        (fun row => decide (row.model = model ∧ row.prompt = prompt ∧ row.metric = dm.1))
    else result) ++ [⟨model, prompt, dm.1, round3 dm.2⟩]
  else result

/-- The body of `energyMap.forEach` for one `(key, energyWh)` entry:
destructure `key.split(':')` into `model` and `prompt` (the first two
segments), then run the derived-metric steps in order. -/
def processEntry (overrideWithDerived : Bool) (existingMetrics : List Str)
    (factors : Factors) (result : List LongRow) (entry : Str × JsNum) : List LongRow :=
  (derivedList factors entry.2).foldl
    (entryStep overrideWithDerived existingMetrics entry.1
      ((jsSplit ':' entry.1).getD 0 []) ((jsSplit ':' entry.1).getD 1 []))
    result

/-- `addDerivedMetrics` from `lib/transform.ts`. -/
def addDerivedMetrics (longData : List LongRow) (factors : Factors)
    (overrideWithDerived : Bool) : List LongRow :=
  let maps := buildMaps longData
  maps.1.foldl (processEntry overrideWithDerived maps.2 factors) longData

/-- The array store of one `addDerivedMetrics` call: the caller's array
(`longData`) and the freshly allocated `result` array.  Every mutation of the
source (`result.splice`, `result.push`) targets the `result` slot; the
`input` slot is only ever read.  `const result = [...longData]` initialises
`result` as a copy — had the source aliased (`const result = longData`), the
mutations would have targeted the shared slot instead. -/
structure ArrayStore where
  input : List LongRow
  result : List LongRow
deriving DecidableEq

/-- One `energyMap.forEach` step acting on the store: all reads and writes of
the loop body touch only `result`. -/
def processEntryStore (overrideWithDerived : Bool) (existingMetrics : List Str)
    (factors : Factors) (st : ArrayStore) (entry : Str × JsNum) : ArrayStore :=
  { st with result := processEntry overrideWithDerived existingMetrics factors st.result entry }

/-- `addDerivedMetrics` in state-passing form over the two-array store. -/
def addDerivedMetricsRun (longData : List LongRow) (factors : Factors)
    (overrideWithDerived : Bool) : ArrayStore :=
  let maps := buildMaps longData
  maps.1.foldl (processEntryStore overrideWithDerived maps.2 factors)
    { input := longData, result := longData }

/-! ### Spec-side definitions (phrasings taken from the specification's own
wording, used to state the claims against the embedded source functions) -/

/-- `` `${key}:${metric}` `` for a record — the string the `existingMetrics`
set stores. -/
def metricKeyOf (r : LongRow) : Str := keyOf r ++ ':' :: r.metric

/-- The energy reading of a `(model, prompt)` pair: the value of the last
`energy_wh` record of that pair (later rows overwrite earlier ones in
`energyMap`), `none` if the pair has no energy record. -/
def energyAt (d : List LongRow) (mdl pr : Str) : Option JsNum :=
  ((d.filter (fun r =>
      decide (r.metric = energyM) && decide (r.model = mdl) && decide (r.prompt = pr))).map
    (·.value)).getLast?

/-- The derived value the specification prescribes for kind `m` from an
energy reading `e`: `co2_g = (e/1000)*grid`, led-equivalent
`= (e/ledBulbWatts)*60`, `onlinevideo_min = e/onlineVideoWhPerMin`. -/
def derivedValueFor (m : Str) (factors : Factors) (e : JsNum) : JsNum :=
  if m = co2M then jsMulQ (jsDivQ e 1000) factors.gridIntensityGCO2PerKwh
  else if m = ledMinutesM then jsMulQ (jsDivQ e factors.ledBulbWatts) 60
  else jsDivQ e factors.onlineVideoWhPerMin

/-- Whether two records agree on the `(model, prompt, metric)` triple. -/
def sameTriple (a b : LongRow) : Prop :=
  a.model = b.model ∧ a.prompt = b.prompt ∧ a.metric = b.metric

instance (a b : LongRow) : Decidable (sameTriple a b) := by
  unfold sameTriple; infer_instance

/-- The finite values of metric `metric` contributed by model `mdl`. -/
def metricValuesOf (d : List LongRow) (mdl metric : Str) : List ℚ :=
  d.filterMap (fun r => if r.model = mdl ∧ r.metric = metric then r.value.finVal else none)

/-- The models contributing at least one finite value of `metric`, in first
appearance order ("group by model"). -/
def modelsFor (d : List LongRow) (metric : Str) : List Str :=
  dedupFirst ((d.filter (fun r => decide (r.metric = metric) && r.value.isFiniteb)).map (·.model))

/-- A model's own arithmetic mean over its values of `metric` (`none` when it
has no finite value of that metric). -/
def modelMeanOf (d : List LongRow) (mdl metric : Str) : Option ℚ :=
  if metricValuesOf d mdl metric = [] then none
  else some (qmean (metricValuesOf d mdl metric))

/-- Macro-averaging as the specification words it: group by model, compute
each model's arithmetic mean, then average those per-model means, each model
counted once. -/
def macroMeanOf (d : List LongRow) (metric : Str) : Option ℚ :=
  if modelsFor d metric = [] then none
  else some (qmean ((modelsFor d metric).map (fun mdl => qmean (metricValuesOf d mdl metric))))

/-- Nearest-rank 95th percentile as the specification words it: sort
ascending, take index `ceil(n * 0.95) - 1` clamped to `[0, n-1]`. -/
def p95NearestRank (values : List ℚ) : Option ℚ :=
  if values = [] then none
  else
    let sorted := sortAsc values
    let n := sorted.length
    let idx : ℤ := ⌈(n : ℚ) * ((95 : ℚ) / 100)⌉ - 1
    some (sorted.getD (min (n - 1) (max 0 idx).toNat) 0)

/-- The arithmetic sum of a list of values (`none` on no values). -/
def sumOfAll (values : List ℚ) : Option ℚ :=
  if values = [] then none else some (qsum values)

/-- The finite `latency_s` values of a relation, in order. -/
def latencyFinite (d : List LongRow) : List ℚ :=
  ((d.filter (fun r => decide (r.metric = latencyM))).map (·.value)).filterMap JsNum.finVal

/-- The finite `energy_wh` values of a relation, in order. -/
def energyFinite (d : List LongRow) : List ℚ :=
  ((d.filter (fun r => decide (r.metric = energyM))).map (·.value)).filterMap JsNum.finVal

/-- The insertion-ordered keys of the energy map: one per `(model, prompt)`
pair that has an `energy_wh` record. -/
def energyKeys (d : List LongRow) : List Str :=
  dedupFirst ((d.filter (fun r => decide (r.metric = energyM))).map keyOf)

/-- The value stored in the energy map at key `k` (the last `energy_wh`
record whose key string is `k`; the `.nan` default is never read for
`k ∈ energyKeys d`). -/
def energyValAtKey (d : List LongRow) (k : Str) : JsNum :=
  (((d.filter (fun r => decide (r.metric = energyM) && decide (keyOf r = k))).map
    (·.value)).getLast?).getD .nan

/-- The suffix strings tried by the parser loop, in priority order: for each
metric kind first `'_' + metric`, then `'-' + metric`. -/
def sepStrings : List Str → List Str
  | [] => []
  | m :: rest => ('_' :: m) :: ('-' :: m) :: sepStrings rest

/-- The Boolean `(model, prompt, metric)` triple test used by the override
splice (`findIndex`) and by the claims about per-triple records. -/
def tripleP (mdl pr met : Str) (a : LongRow) : Bool :=
  decide (a.model = mdl ∧ a.prompt = pr ∧ a.metric = met)

/-- The records one `energyMap.forEach` entry appends when `override` is
false: one per derived metric whose `` `${key}:${metric}` `` string is not in
`existingMetrics`. -/
def pushesOf (existingMetrics : List Str) (factors : Factors)
    (entry : Str × JsNum) : List LongRow :=
  (derivedList factors entry.2).filterMap (fun dm =>
    if (entry.1 ++ ':' :: dm.1) ∉ existingMetrics then
      some ⟨(jsSplit ':' entry.1).getD 0 [], (jsSplit ':' entry.1).getD 1 [],
        dm.1, round3 dm.2⟩
    else none)

/-- A concrete two-record relation used as a test vector: one energy reading
and a pre-existing (CSV-supplied) `co2_g` record for the same pair. -/
def exampleRelation : List LongRow :=
  [⟨("a").toList, ("p").toList, energyM, .num 10⟩,
   ⟨("a").toList, ("p").toList, co2M, .num 5⟩]

/-- A concrete single-record relation whose model contains `':'`. -/
def colonRelation : List LongRow :=
  [⟨("a:b").toList, ("p").toList, energyM, .num 10⟩]

/-! ## Lemmas and claim theorems -/

set_option maxHeartbeats 1000000
set_option synthInstance.maxHeartbeats 400000

/-- Evaluation helper for `round` on rationals via the floor
characterisation. -/
lemma round_int_eq {x : ℚ} {n : ℤ} (h₁ : (n : ℚ) ≤ x + 1 / 2) (h₂ : x + 1 / 2 < n + 1) :
    (round x : ℤ) = n := by
  rw [round_eq]; exact Int.floor_eq_iff.mpr ⟨h₁, h₂⟩

/-- Concrete run of the synthesizer on a single energy reading of `10` Wh
with the default factors. -/
lemma addDerived_example_eval :
    addDerivedMetrics [⟨("m").toList, ("p").toList, energyM, .num 10⟩] DEFAULT_FACTORS false =
      [⟨("m").toList, ("p").toList, energyM, .num 10⟩,
       ⟨("m").toList, ("p").toList, co2M, .num 3⟩,
       ⟨("m").toList, ("p").toList, ledMinutesM, .num (85714 / 1000)⟩,
       ⟨("m").toList, ("p").toList, onlinevideoM, .num (11111 / 1000)⟩] := by
  simp +decide [addDerivedMetrics, buildMaps, energyStep, existingStep, processEntry,
    entryStep, derivedList, keyOf, mapSet, setAdd, trackedDerived, jsSplit, round3, jsMulQ,
    jsDivQ, jsRound, DEFAULT_FACTORS, energyM, co2M, ledMinutesM, onlinevideoM]
  refine ⟨?_, ?_, ?_⟩
  · have h : (round ((10 : ℚ) / 1000 * 300 * 1000) : ℤ) = 3000 :=
      round_int_eq (by norm_num) (by norm_num)
    rw [h]; norm_num
  · have h : (round ((10 : ℚ) / 7 * 60 * 1000) : ℤ) = 85714 :=
      round_int_eq (by norm_num) (by norm_num)
    rw [h]; norm_num
  · have h : (round ((10 : ℚ) / (9 / 10) * 1000) : ℤ) = 11111 :=
      round_int_eq (by norm_num) (by norm_num)
    rw [h]; norm_num

/-- C1: the claim states that every record produced by the engine carries a
metric from the closed enumeration `quality | latency_s | energy_wh | co2_g |
led_hours | onlinevideo_min`.  The code violates this: on any relation with
an energy reading, `addDerivedMetrics` pushes records whose metric is the
string `'led_minutes'`, which lies outside the enumeration (and outside the
source's own `MetricName` type). -/
theorem C1_led_minutes_escapes_enumeration :
    (⟨("m").toList, ("p").toList, ledMinutesM, .num (85714 / 1000)⟩ : LongRow) ∈
        addDerivedMetrics [⟨("m").toList, ("p").toList, energyM, .num 10⟩]
          DEFAULT_FACTORS false ∧
      ledMinutesM ∉ SUPPORTED_METRICS := by
  constructor
  · rw [addDerived_example_eval]; simp
  · decide

/-- A row without finite cells leaves the min/max fold unchanged. -/
lemma foldRow_skip (row : List JsNum) (h : ∀ v ∈ row, v.finVal = none)
    (a : JsNum × JsNum) : row.foldl minMaxStep a = a := by
  induction row generalizing a with
  | nil => rfl
  | cons v vs ihv =>
    rw [List.foldl_cons]
    have hv : v.finVal = none := h v (by simp)
    have : minMaxStep a v = a := by unfold minMaxStep; rw [hv]
    rw [this]
    exact ihv (fun w hw => h w (by simp [hw])) a

/-- A matrix without finite cells leaves the min/max fold unchanged. -/
lemma foldMinMax_skip (vss : List (List JsNum))
    (h : ∀ row ∈ vss, ∀ v ∈ row, v.finVal = none)
    (acc : JsNum × JsNum) :
    vss.foldl (fun acc row => row.foldl minMaxStep acc) acc = acc := by
  induction vss generalizing acc with
  | nil => rfl
  | cons row rest ih =>
    rw [List.foldl_cons, foldRow_skip row (h row (by simp)) acc]
    exact ih (fun r hr => h r (by simp [hr])) acc

/-- C8: on empty input the aggregates degrade gracefully: `calculateKpis []`
is the all-`null` summary, and `getMinMax` of a matrix with no finite
non-`NaN` cell returns the default bounds `{min: 0, max: 1}` (finite by
construction), never non-finite bounds. -/
theorem C8_empty_input_graceful :
    calculateKpis [] = ⟨none, none, none, none, none, none⟩ ∧
      ∀ vss : List (List JsNum),
        (∀ row ∈ vss, ∀ v ∈ row, v.finVal = none) → getMinMax vss = (0, 1) := by
  constructor
  · rfl
  · intro vss h
    simp only [getMinMax]
    rw [foldMinMax_skip vss h]

/-- C8 witness: the graceful-degradation branch at the concrete all-`NaN`
matrix `[[NaN]]`. -/
theorem C8_empty_input_graceful_witness :
    getMinMax [[JsNum.nan]] = (0, 1) :=
  C8_empty_input_graceful.2 [[JsNum.nan]] (by decide)

/-- The store-level fold leaves the `input` slot untouched and folds the
pure per-entry transformation over the `result` slot. -/
lemma foldl_store (o : Bool) (ex : List Str) (f : Factors) :
    ∀ (entries : List (Str × JsNum)) (st : ArrayStore),
      entries.foldl (processEntryStore o ex f) st =
        ⟨st.input, entries.foldl (processEntry o ex f) st.result⟩
  | [], _ => rfl
  | e :: es, st => by
    rw [List.foldl_cons, List.foldl_cons, foldl_store o ex f es]
    rfl

/-- C9: `addDerivedMetrics` does not mutate its caller's array.  In the
two-slot store semantics (the caller's array plus the freshly copied
`result`), the run leaves the caller's array exactly as it was — same
length, same records in the same order with unchanged fields — and returns
the separately built result. -/
theorem C9_no_input_mutation (d : List LongRow) (f : Factors) (o : Bool) :
    (addDerivedMetricsRun d f o).input = d ∧
      (addDerivedMetricsRun d f o).result = addDerivedMetrics d f o := by
  unfold addDerivedMetricsRun addDerivedMetrics
  rw [foldl_store]
  exact ⟨rfl, rfl⟩

/-- Membership in the reshaped records of one parsed row. -/
lemma mem_reshapeRow {p : ParsedMetricLabel} {values : List (Str × Option JsNum)}
    {r : LongRow} :
    r ∈ reshapeRow p values ↔
      r.model = p.model ∧ r.metric = p.metric ∧
        (r.prompt, some r.value) ∈ values ∧ r.value.isNaNb = false := by
  unfold reshapeRow
  rw [List.mem_filterMap]
  constructor
  · rintro ⟨⟨pr, ov⟩, hmem, hf⟩
    match ov, hf with
    | some v, hf =>
      by_cases hn : v.isNaNb
      · simp [hn] at hf
      · simp only [hn, if_neg, Bool.false_eq_true, ite_false] at hf
        obtain rfl := Option.some.inj hf
        exact ⟨rfl, rfl, by simpa using hmem, by simpa using hn⟩
  · rintro ⟨h1, h2, hmem, h4⟩
    refine ⟨(r.prompt, some r.value), hmem, ?_⟩
    obtain ⟨rm, rp, rmet, rv⟩ := r
    simp only at h1 h2 h4 ⊢
    rw [h4]
    simp [h1, h2]

/-- Membership characterisation of the `matrixToLong` fold. -/
lemma mem_matrixToLong_aux :
    ∀ (md : List MatrixRow) (acc : List LongRow) (r : LongRow),
      r ∈ md.foldl matrixStep acc ↔
        r ∈ acc ∨ ∃ row ∈ md, ∃ p : ParsedMetricLabel,
          parseMetricLabel row.metricLabel = some p ∧ r.model = p.model ∧
            r.metric = p.metric ∧ (r.prompt, some r.value) ∈ row.values ∧
            r.value.isNaNb = false := by
  intro md
  induction md with
  | nil => simp
  | cons row rest ih =>
    intro acc r
    rw [List.foldl_cons, ih]
    unfold matrixStep
    cases hp : parseMetricLabel row.metricLabel with
    | none =>
      simp only [List.mem_cons]
      constructor
      · rintro (h | h)
        · exact Or.inl h
        · exact Or.inr (by
            obtain ⟨row', hrow', rest'⟩ := h
            exact ⟨row', Or.inr hrow', rest'⟩)
      · rintro (h | ⟨row', hrow' | hrow', hrest⟩)
        · exact Or.inl h
        · subst hrow'
          obtain ⟨p, hp', -⟩ := hrest
          rw [hp] at hp'
          cases hp'
        · exact Or.inr ⟨row', hrow', hrest⟩
    | some parsed =>
      rw [List.mem_append, mem_reshapeRow]
      constructor
      · rintro ((h | h) | h)
        · exact Or.inl h
        · exact Or.inr ⟨row, by simp, parsed, hp, h⟩
        · obtain ⟨row', hrow', rest'⟩ := h
          exact Or.inr ⟨row', by simp [hrow'], rest'⟩
      · rintro (h | ⟨row', hrow', q, hq, hrest⟩)
        · exact Or.inl (Or.inl h)
        · rcases List.mem_cons.mp hrow' with hrow' | hrow'
          · subst hrow'
            rw [hp] at hq
            obtain rfl := Option.some.inj hq
            exact Or.inl (Or.inr hrest)
          · exact Or.inr ⟨row', hrow', q, hq, hrest⟩

/-- C2 counterexample: the claim states that only finite values are ever
stored; but an `Infinity` cell passes the source's `!== null && !isNaN`
filter and is stored in the long relation. -/
theorem C2_infinite_value_stored :
    matrixToLong [⟨("m_quality").toList, [(("p01").toList, some .posInf)]⟩] =
        [⟨("m").toList, ("p01").toList, qualityM, .posInf⟩] ∧
      JsNum.isFiniteb .posInf = false := by
  decide

/-- C2 (amended): `matrixToLong` emits, for each parseable row, exactly those
per-prompt cells whose value is non-null and not `NaN`; null and `NaN` cells
are dropped and never stored (an infinite non-`NaN` value passes the filter
and is stored). -/
theorem C2_reshape_membership (md : List MatrixRow) (r : LongRow) :
    r ∈ matrixToLong md ↔
      ∃ row ∈ md, ∃ p : ParsedMetricLabel,
        parseMetricLabel row.metricLabel = some p ∧ r.model = p.model ∧
          r.metric = p.metric ∧ (r.prompt, some r.value) ∈ row.values ∧
          r.value.isNaNb = false := by
  unfold matrixToLong
  rw [mem_matrixToLong_aux]
  simp

/-! ### `split(':')` lemmas -/

/-- `jsSplit` always produces at least one segment. -/
lemma jsSplit_ne_nil (sep : Char) (s : Str) : jsSplit sep s ≠ [] := by
  cases s with
  | nil => simp [jsSplit]
  | cons c rest =>
    unfold jsSplit
    split
    · simp
    · split <;> simp

/-- Splitting a string without the separator yields the single segment. -/
lemma jsSplit_no_sep {sep : Char} {s : Str} (h : sep ∉ s) : jsSplit sep s = [s] := by
  induction s with
  | nil => rfl
  | cons c rest ih =>
    have hc : ¬ c = sep := by rintro rfl; exact h (by simp)
    have hr : sep ∉ rest := fun hm => h (by simp [hm])
    simp only [jsSplit, if_neg hc, ih hr]

/-- Splitting at the first separator occurrence peels off the head
segment. -/
lemma jsSplit_append {sep : Char} {a b : Str} (h : sep ∉ a) :
    jsSplit sep (a ++ sep :: b) = a :: jsSplit sep b := by
  induction a with
  | nil => simp [jsSplit]
  | cons c rest ih =>
    have hc : ¬ c = sep := by rintro rfl; exact h (by simp)
    have hr : sep ∉ rest := fun hm => h (by simp [hm])
    simp only [List.cons_append, jsSplit, if_neg hc, List.append_eq, ih hr]

/-- Joining with a separator absent from both heads is injective. -/
lemma append_sep_inj {sep : Char} {a b c d : Str} (ha : sep ∉ a) (hc : sep ∉ c)
    (h : a ++ sep :: b = c ++ sep :: d) : a = c ∧ b = d := by
  have hs := congrArg (jsSplit sep) h
  rw [jsSplit_append ha, jsSplit_append hc] at hs
  have h1 : a = c := (List.cons.inj hs).1
  subst h1
  refine ⟨rfl, ?_⟩
  have := List.append_cancel_left h
  exact (List.cons.inj this).2

/-- C10: `addDerivedMetrics` rebuilds the `(model, prompt)` pair of each
derived record by joining with `':'` and splitting on `':'` again: for an
energy record whose model itself contains `':'` (model `m₁ ++ ':' :: m₂`
with `':' ∉ m₁, m₂`), the emitted derived records carry model `m₁` (the text
before the first `':'`) and prompt `m₂` (the text between the first and
second `':'`) — not the original `(model, prompt)` pair. -/
theorem C10_split_colon_keys (m₁ m₂ pr : Str) (e : JsNum) (f : Factors) (o : Bool)
    (h₁ : ':' ∉ m₁) (h₂ : ':' ∉ m₂) :
    addDerivedMetrics [⟨m₁ ++ ':' :: m₂, pr, energyM, e⟩] f o =
        [⟨m₁ ++ ':' :: m₂, pr, energyM, e⟩,
         ⟨m₁, m₂, co2M, round3 (jsMulQ (jsDivQ e 1000) f.gridIntensityGCO2PerKwh)⟩,
         ⟨m₁, m₂, ledMinutesM, round3 (jsMulQ (jsDivQ e f.ledBulbWatts) 60)⟩,
         ⟨m₁, m₂, onlinevideoM, round3 (jsDivQ e f.onlineVideoWhPerMin)⟩] ∧
      m₁ ≠ m₁ ++ ':' :: m₂ := by
  have hsplit : jsSplit ':' (m₁ ++ ':' :: (m₂ ++ ':' :: pr)) = m₁ :: m₂ :: jsSplit ':' pr := by
    rw [jsSplit_append h₁, jsSplit_append h₂]
  constructor
  · cases o with
    | false =>
      unfold addDerivedMetrics buildMaps
      simp only [List.foldl_cons, List.foldl_nil]
      simp +decide [keyOf, mapSet, setAdd, trackedDerived, energyStep, existingStep,
        processEntry, entryStep, derivedList, hsplit]
    | true =>
      unfold addDerivedMetrics buildMaps
      simp only [List.foldl_cons, List.foldl_nil]
      simp +decide [keyOf, mapSet, setAdd, trackedDerived, energyStep, existingStep,
        processEntry, entryStep, derivedList, hsplit, List.eraseP_cons]
  · intro hcontra
    have hlen := congrArg List.length hcontra
    simp at hlen

/-- C10 witness: the concrete model `"a:b"` with prompt `"p"` — the derived
records are attributed to model `"a"` and prompt `"b"`. -/
theorem C10_split_colon_keys_witness :
    addDerivedMetrics [⟨("a").toList ++ ':' :: ("b").toList, ("p").toList, energyM, .num 10⟩]
          DEFAULT_FACTORS false =
        [⟨("a").toList ++ ':' :: ("b").toList, ("p").toList, energyM, .num 10⟩,
         ⟨("a").toList, ("b").toList, co2M,
           round3 (jsMulQ (jsDivQ (.num 10) 1000) DEFAULT_FACTORS.gridIntensityGCO2PerKwh)⟩,
         ⟨("a").toList, ("b").toList, ledMinutesM,
           round3 (jsMulQ (jsDivQ (.num 10) DEFAULT_FACTORS.ledBulbWatts) 60)⟩,
         ⟨("a").toList, ("b").toList, onlinevideoM,
           round3 (jsDivQ (.num 10) DEFAULT_FACTORS.onlineVideoWhPerMin)⟩] ∧
      ("a").toList ≠ ("a").toList ++ ':' :: ("b").toList :=
  C10_split_colon_keys (("a").toList) (("b").toList) (("p").toList) (.num 10)
    DEFAULT_FACTORS false (by decide) (by decide)

/-! ### P95 / total lemmas -/

lemma length_insertSorted (x : ℚ) (l : List ℚ) :
    (insertSorted x l).length = l.length + 1 := by
  induction l with
  | nil => rfl
  | cons y ys ih =>
    simp only [insertSorted]
    split
    · simp
    · simp [ih]

lemma length_sortAsc (l : List ℚ) : (sortAsc l).length = l.length := by
  induction l with
  | nil => rfl
  | cons x xs ih =>
    simp only [sortAsc, List.foldr_cons] at ih ⊢
    rw [length_insertSorted, ih]
    simp

/-- `calculateP95` equals the claim-level nearest-rank percentile of the
finite values: the source's lower-only clamp `Math.max(0, index)` coincides
with the full clamp to `[0, n-1]` because `ceil(n * 0.95) - 1 ≤ n - 1`. -/
lemma calculateP95_eq (values : List JsNum) :
    calculateP95 values = p95NearestRank (values.filterMap JsNum.finVal) := by
  simp only [calculateP95, p95NearestRank]
  by_cases h0 : values = []
  · subst h0; simp
  · rw [if_neg h0]
    by_cases hv : values.filterMap JsNum.finVal = []
    · simp [hv]
    · rw [if_neg hv, if_neg hv]
      congr 1
      have hn : 1 ≤ (sortAsc (values.filterMap JsNum.finVal)).length := by
        rw [length_sortAsc]
        exact List.length_pos.mpr hv
      set n := (sortAsc (values.filterMap JsNum.finVal)).length with hndef
      have hceil : ⌈(n : ℚ) * ((95 : ℚ) / 100)⌉ ≤ (n : ℤ) := by
        apply Int.ceil_le.mpr
        have h1 : ((n : ℚ)) * ((95 : ℚ) / 100) ≤ (n : ℚ) * 1 :=
          mul_le_mul_of_nonneg_left (by norm_num) (by positivity)
        simpa using h1
      have hidx : (max 0 (⌈(n : ℚ) * ((95 : ℚ) / 100)⌉ - 1)).toNat ≤ n - 1 := by
        omega
      rw [min_eq_right hidx]

/-- `calculateSum` equals the claim-level sum of the finite values. -/
lemma calculateSum_eq (values : List JsNum) :
    calculateSum values = sumOfAll (values.filterMap JsNum.finVal) := by
  simp only [calculateSum, sumOfAll]
  by_cases h0 : values = []
  · subst h0; simp
  · rw [if_neg h0]

/-- C6: `p95Latency` and `totalEnergy` are computed over all individual
records regardless of the number of distinct models: `p95Latency` is the
nearest-rank 95th percentile of the `latency_s` values (sort ascending,
index `ceil(n*0.95)-1` clamped to `[0, n-1]`) and `totalEnergy` is the
arithmetic sum of the `energy_wh` values — each rounded at the summary
boundary (3 resp. 4 decimals); on latencies `[1..10]` the percentile is
`10`. -/
theorem C6_p95_total_over_all_records (d : List LongRow) :
    (calculateKpis d).p95Latency = (p95NearestRank (latencyFinite d)).map (roundS 1000) ∧
      (calculateKpis d).totalEnergy = (sumOfAll (energyFinite d)).map (roundS 10000) ∧
      p95NearestRank [1, 2, 3, 4, 5, 6, 7, 8, 9, 10] = some 10 := by
  refine ⟨?_, ?_, ?_⟩
  · have hproj : (calculateKpis d).p95Latency =
        (calculateP95 ((d.filter (fun row => decide (row.metric = latencyM))).map
          (·.value))).map (roundS 1000) := rfl
    rw [hproj, calculateP95_eq]
    rfl
  · have hproj : (calculateKpis d).totalEnergy =
        (calculateSum ((d.filter (fun row => decide (row.metric = energyM))).map
          (·.value))).map (roundS 10000) := rfl
    rw [hproj, calculateSum_eq]
    rfl
  · have hc : (⌈(19 : ℚ) / 2⌉ : ℤ) = 10 := by
      rw [Int.ceil_eq_iff]
      norm_num
    norm_num [p95NearestRank, sortAsc, insertSorted, hc]
    intro h
    simp at h

/-! ### Ordered-map lemmas for the grouping pass -/

lemma lookupL_keyMap {β : Type} (f : Str → β) (ks : List Str) (x : Str) :
    lookupL (ks.map (fun k => (k, f k))) x = if x ∈ ks then some (f x) else none := by
  induction ks with
  | nil => simp [lookupL]
  | cons k rest ih =>
    rw [List.map_cons]
    unfold lookupL
    rw [List.find?_cons]
    by_cases hk : k = x
    · subst hk; simp
    · rw [decide_eq_false (by simpa using hk)]
      have ih' : Option.map (fun p => p.2)
          (List.find? (fun p => decide (p.1 = x)) (rest.map (fun k => (k, f k)))) =
            if x ∈ rest then some (f x) else none := ih
      rw [ih']
      have hmem : (x ∈ k :: rest) ↔ (x ∈ rest) := by
        simp only [List.mem_cons]
        constructor
        · rintro (h | h)
          · exact absurd h.symm hk
          · exact h
        · exact Or.inr
      by_cases hx : x ∈ rest
      · rw [if_pos hx, if_pos (hmem.mpr hx)]
      · rw [if_neg hx, if_neg (fun h => hx (hmem.mp h))]

lemma any_keyMap {β : Type} (f : Str → β) (ks : List Str) (x : Str) :
    (ks.map (fun k => (k, f k))).any (fun p => decide (p.1 = x)) = decide (x ∈ ks) := by
  induction ks with
  | nil => simp
  | cons k rest ih =>
    simp only [List.map_cons, List.any_cons, ih]
    by_cases hk : k = x
    · subst hk; simp
    · rw [decide_eq_false (by simpa using hk)]
      simp only [Bool.false_or]
      have hnot : (x ∈ k :: rest) ↔ (x ∈ rest) := by
        simp only [List.mem_cons]
        constructor
        · rintro (h | h)
          · exact absurd h.symm hk
          · exact h
        · exact Or.inr
      by_cases hx : x ∈ rest
      · simp [hx, hnot.mpr hx]
      · simp only [hx, decide_eq_false hx, decide_eq_false (fun h => hx (hnot.mp h))]
        simp

lemma mapSet_keyMap_mem {β : Type} (f : Str → β) (ks : List Str) (x : Str) (v : β)
    (hx : x ∈ ks) :
    mapSet (ks.map (fun k => (k, f k))) x v =
      ks.map (fun k => (k, if k = x then v else f k)) := by
  unfold mapSet
  rw [any_keyMap]
  simp only [hx, List.map_map]
  rw [if_pos (by simp)]
  apply List.map_congr_left
  intro k _
  by_cases hk : k = x
  · subst hk; simp
  · simp [hk]

lemma mapSet_keyMap_not_mem {β : Type} (f : Str → β) (ks : List Str) (x : Str) (v : β)
    (hx : x ∉ ks) :
    mapSet (ks.map (fun k => (k, f k))) x v = ks.map (fun k => (k, f k)) ++ [(x, v)] := by
  unfold mapSet
  rw [any_keyMap]
  simp [hx]

lemma dedupFirst_append_singleton (l : List Str) (x : Str) :
    dedupFirst (l ++ [x]) =
      if x ∈ dedupFirst l then dedupFirst l else dedupFirst l ++ [x] := by
  unfold dedupFirst
  rw [List.foldl_append]
  rfl

lemma mem_dedupFirst_aux (l : List Str) :
    ∀ (acc : List Str) (x : Str), x ∈ l.foldl (fun acc y => if y ∈ acc then acc else acc ++ [y]) acc ↔
      x ∈ acc ∨ x ∈ l := by
  induction l with
  | nil => simp
  | cons a rest ih =>
    intro acc x
    rw [List.foldl_cons, ih]
    by_cases ha : a ∈ acc
    · simp only [if_pos ha, List.mem_cons]
      constructor
      · rintro (h | h)
        · exact Or.inl h
        · exact Or.inr (Or.inr h)
      · rintro (h | h | h)
        · exact Or.inl h
        · exact Or.inl (h ▸ ha)
        · exact Or.inr h
    · simp only [if_neg ha, List.mem_append, List.mem_singleton, List.mem_cons]
      tauto

lemma mem_dedupFirst {l : List Str} {x : Str} : x ∈ dedupFirst l ↔ x ∈ l := by
  unfold dedupFirst
  rw [mem_dedupFirst_aux]
  simp

/-- A model outside the metric's grouping contributes no values. -/
lemma metricValuesOf_nil_of_not_mem {d : List LongRow} {mdl metric : Str}
    (h : mdl ∉ modelsFor d metric) : metricValuesOf d mdl metric = [] := by
  rw [metricValuesOf, List.filterMap_eq_nil_iff]
  intro r hr
  by_cases hcond : r.model = mdl ∧ r.metric = metric
  · rw [if_pos hcond]
    cases hfin : r.value.finVal with
    | none => rfl
    | some q =>
      exfalso
      apply h
      rw [modelsFor, mem_dedupFirst]
      refine List.mem_map.mpr ⟨r, List.mem_filter.mpr ⟨hr, ?_⟩, hcond.1⟩
      have hf : r.value.isFiniteb = true := by
        cases hv : r.value <;> simp_all [JsNum.finVal, JsNum.isFiniteb]
      simp [hcond.2, hf]
  · simp [if_neg hcond]

/-- A model inside the metric's grouping contributes at least one value. -/
lemma metricValuesOf_ne_nil_of_mem {d : List LongRow} {mdl metric : Str}
    (h : mdl ∈ modelsFor d metric) : metricValuesOf d mdl metric ≠ [] := by
  rw [modelsFor, mem_dedupFirst] at h
  obtain ⟨r, hr, hrm⟩ := List.mem_map.mp h
  obtain ⟨hrd, hcond⟩ := List.mem_filter.mp hr
  obtain ⟨hmet, hfin⟩ := Bool.and_eq_true_iff.mp hcond
  obtain ⟨q, hq⟩ : ∃ q, r.value.finVal = some q := by
    cases hv : r.value <;> simp_all [JsNum.finVal, JsNum.isFiniteb]
  intro hnil
  rw [metricValuesOf, List.filterMap_eq_nil_iff] at hnil
  have := hnil r hrd
  rw [if_pos ⟨hrm, of_decide_eq_true hmet⟩, hq] at this
  cases this

/-- Master lemma: the `byModel` grouping map is the insertion-ordered list of
grouped models, each carrying exactly its finite values of the metric in
record order. -/
lemma groupByModel_eq (d : List LongRow) (metric : Str) :
    groupByModel d metric =
      (modelsFor d metric).map (fun k => (k, metricValuesOf d k metric)) := by
  induction d using List.reverseRecOn with
  | nil => rfl
  | append_singleton d r ih =>
    unfold groupByModel at ih ⊢
    simp only [List.foldl_append, List.foldl_cons, List.foldl_nil, ih]
    by_cases hmet : r.metric = metric
    · rw [if_pos hmet]
      cases hfin : r.value.finVal with
      | none =>
        simp only [hfin]
        have hisf : r.value.isFiniteb = false := by
          cases hv : r.value <;> simp_all [JsNum.finVal, JsNum.isFiniteb]
        have hms : modelsFor (d ++ [r]) metric = modelsFor d metric := by
          unfold modelsFor
          rw [List.filter_append]
          have hf : List.filter (fun r' => decide (r'.metric = metric) && r'.value.isFiniteb)
              [r] = [] := by simp [hisf]
          rw [hf, List.append_nil]
        rw [hms]
        apply List.map_congr_left
        intro k _
        have hv : metricValuesOf (d ++ [r]) k metric = metricValuesOf d k metric := by
          unfold metricValuesOf
          rw [List.filterMap_append]
          have hf : List.filterMap
              (fun r' => if r'.model = k ∧ r'.metric = metric then r'.value.finVal else none)
              [r] = [] := by simp [hfin]
          rw [hf, List.append_nil]
        rw [hv]
      | some q =>
        simp only [hfin]
        have hisf : r.value.isFiniteb = true := by
          cases hv : r.value <;> simp_all [JsNum.finVal, JsNum.isFiniteb]
        have hval : ∀ k, metricValuesOf (d ++ [r]) k metric =
            metricValuesOf d k metric ++ (if r.model = k then [q] else []) := by
          intro k
          unfold metricValuesOf
          rw [List.filterMap_append]
          congr 1
          by_cases hmk : r.model = k
          · simp [hmk, hmet, hfin]
          · simp [hmk]
        have hfilter_r :
            List.filter (fun r' => decide (r'.metric = metric) && r'.value.isFiniteb) [r] =
              [r] := by simp [hmet, hisf]
        by_cases hmem : r.model ∈ modelsFor d metric
        · have hms : modelsFor (d ++ [r]) metric = modelsFor d metric := by
            unfold modelsFor
            rw [List.filter_append, hfilter_r, List.map_append]
            simp only [List.map_cons, List.map_nil]
            rw [dedupFirst_append_singleton]
            exact if_pos hmem
          rw [lookupL_keyMap, if_pos hmem, Option.getD_some,
            mapSet_keyMap_mem _ _ _ _ hmem, hms]
          apply List.map_congr_left
          intro k hk
          rw [hval k]
          by_cases hmk : k = r.model
          · subst hmk
            simp
          · rw [if_neg hmk, if_neg (fun h => hmk h.symm), List.append_nil]
        · have hms : modelsFor (d ++ [r]) metric = modelsFor d metric ++ [r.model] := by
            unfold modelsFor
            rw [List.filter_append, hfilter_r, List.map_append]
            simp only [List.map_cons, List.map_nil]
            rw [dedupFirst_append_singleton]
            exact if_neg hmem
          rw [lookupL_keyMap, if_neg hmem]
          simp only [Option.getD_none, List.nil_append]
          rw [mapSet_keyMap_not_mem _ _ _ _ hmem, hms, List.map_append]
          congr 1
          · apply List.map_congr_left
            intro k hk
            rw [hval k, if_neg (fun h => hmem (by rw [h]; exact hk)), List.append_nil]
          · simp only [List.map_cons, List.map_nil]
            rw [hval r.model, if_pos rfl, metricValuesOf_nil_of_not_mem hmem,
              List.nil_append]
    · rw [if_neg hmet]
      have hms : modelsFor (d ++ [r]) metric = modelsFor d metric := by
        unfold modelsFor
        rw [List.filter_append]
        have hf : List.filter (fun r' => decide (r'.metric = metric) && r'.value.isFiniteb)
            [r] = [] := by simp [hmet]
        rw [hf, List.append_nil]
      rw [hms]
      apply List.map_congr_left
      intro k _
      have hv : metricValuesOf (d ++ [r]) k metric = metricValuesOf d k metric := by
        unfold metricValuesOf
        rw [List.filterMap_append]
        have hf : List.filterMap
            (fun r' => if r'.model = k ∧ r'.metric = metric then r'.value.finVal else none)
            [r] = [] := by simp [hmet]
        rw [hf, List.append_nil]
      rw [hv]

/-- The per-model averages map is the per-model arithmetic means, in
grouping order. -/
lemma perModelAverages_eq (d : List LongRow) (metric : Str) :
    (calculatePerModelAverages d metric).perModelAverages =
      (modelsFor d metric).map (fun k => (k, qmean (metricValuesOf d k metric))) := by
  unfold calculatePerModelAverages
  rw [groupByModel_eq]
  have hfull : ((modelsFor d metric).map
      (fun k => (k, metricValuesOf d k metric))).filter (fun p => decide (0 < p.2.length)) =
        (modelsFor d metric).map (fun k => (k, metricValuesOf d k metric)) := by
    rw [List.filter_eq_self]
    intro p hp
    obtain ⟨k, hk, rfl⟩ := List.mem_map.mp hp
    simp only [decide_eq_true_eq]
    exact List.length_pos.mpr (metricValuesOf_ne_nil_of_mem hk)
  simp only [hfull, List.map_map]
  rfl

/-- The macro average equals the specification's macro mean. -/
lemma macroAverage_eq (d : List LongRow) (metric : Str) :
    (calculatePerModelAverages d metric).macroAverage = macroMeanOf d metric := by
  unfold calculatePerModelAverages macroMeanOf
  rw [groupByModel_eq]
  have hfull : ((modelsFor d metric).map
      (fun k => (k, metricValuesOf d k metric))).filter (fun p => decide (0 < p.2.length)) =
        (modelsFor d metric).map (fun k => (k, metricValuesOf d k metric)) := by
    rw [List.filter_eq_self]
    intro p hp
    obtain ⟨k, hk, rfl⟩ := List.mem_map.mp hp
    simp only [decide_eq_true_eq]
    exact List.length_pos.mpr (metricValuesOf_ne_nil_of_mem hk)
  simp only [hfull, List.map_map]
  by_cases hks : modelsFor d metric = []
  · simp [hks]
  · rw [if_neg hks, if_pos]
    · rfl
    · simpa [List.length_pos] using hks

/-- Looking up a model in the per-model averages yields exactly that model's
own mean of the metric. -/
lemma lookup_perModelAverages (d : List LongRow) (metric mdl : Str) :
    lookupL (calculatePerModelAverages d metric).perModelAverages mdl =
      modelMeanOf d mdl metric := by
  rw [perModelAverages_eq, lookupL_keyMap, modelMeanOf]
  by_cases hmem : mdl ∈ modelsFor d metric
  · rw [if_pos hmem, if_neg (metricValuesOf_ne_nil_of_mem hmem)]
  · rw [if_neg hmem, if_pos (metricValuesOf_nil_of_not_mem hmem)]

/-- C3: with more than one distinct model, `calculateKpis` computes the mean
quality/latency/energy fields by macro-averaging (the unweighted average of
per-model arithmetic means, each model counted once); with exactly one
distinct model, each field is that model's own arithmetic mean of the
metric.  Rounding (2/3/4 decimals) is applied at the summary boundary. -/
theorem C3_macro_micro_averaging (d : List LongRow) :
    (1 < (uniqueModelsOrdered d).length →
        (calculateKpis d).meanQuality = (macroMeanOf d qualityM).map (roundS 100) ∧
        (calculateKpis d).meanLatency = (macroMeanOf d latencyM).map (roundS 1000) ∧
        (calculateKpis d).meanEnergy = (macroMeanOf d energyM).map (roundS 10000)) ∧
      ((uniqueModelsOrdered d).length = 1 →
        ∀ mdl, (uniqueModelsOrdered d).head? = some mdl →
          (calculateKpis d).meanQuality = (modelMeanOf d mdl qualityM).map (roundS 100) ∧
          (calculateKpis d).meanLatency = (modelMeanOf d mdl latencyM).map (roundS 1000) ∧
          (calculateKpis d).meanEnergy = (modelMeanOf d mdl energyM).map (roundS 10000)) := by
  have hq : (calculateKpis d).meanQuality =
      (if 1 < (uniqueModelsOrdered d).length
        then (calculatePerModelAverages d qualityM).macroAverage
        else match (uniqueModelsOrdered d).head? with
          | some m => lookupL (calculatePerModelAverages d qualityM).perModelAverages m
          | none => none).map (roundS 100) := rfl
  have hl : (calculateKpis d).meanLatency =
      (if 1 < (uniqueModelsOrdered d).length
        then (calculatePerModelAverages d latencyM).macroAverage
        else match (uniqueModelsOrdered d).head? with
          | some m => lookupL (calculatePerModelAverages d latencyM).perModelAverages m
          | none => none).map (roundS 1000) := rfl
  have he : (calculateKpis d).meanEnergy =
      (if 1 < (uniqueModelsOrdered d).length
        then (calculatePerModelAverages d energyM).macroAverage
        else match (uniqueModelsOrdered d).head? with
          | some m => lookupL (calculatePerModelAverages d energyM).perModelAverages m
          | none => none).map (roundS 10000) := rfl
  constructor
  · intro hmany
    rw [hq, hl, he]
    rw [if_pos hmany, if_pos hmany, if_pos hmany,
      macroAverage_eq, macroAverage_eq, macroAverage_eq]
    exact ⟨rfl, rfl, rfl⟩
  · intro hone mdl hm
    have hnot : ¬ 1 < (uniqueModelsOrdered d).length := by omega
    rw [hq, hl, he, if_neg hnot, if_neg hnot, if_neg hnot]
    simp only [hm]
    rw [lookup_perModelAverages, lookup_perModelAverages, lookup_perModelAverages]
    exact ⟨rfl, rfl, rfl⟩

/-- C3 witness: the two-model relation `{a: 2, b: 4}` takes the macro path,
the single-model relation `{a: 2}` takes the model-lookup path. -/
theorem C3_macro_micro_averaging_witness :
    ((calculateKpis
        [⟨("a").toList, ("p").toList, qualityM, .num 2⟩,
         ⟨("b").toList, ("p").toList, qualityM, .num 4⟩]).meanQuality =
      (macroMeanOf
        [⟨("a").toList, ("p").toList, qualityM, .num 2⟩,
         ⟨("b").toList, ("p").toList, qualityM, .num 4⟩] qualityM).map (roundS 100)) ∧
    ((calculateKpis [⟨("a").toList, ("p01").toList, qualityM, .num 2⟩]).meanQuality =
      (modelMeanOf [⟨("a").toList, ("p01").toList, qualityM, .num 2⟩]
        (("a").toList) qualityM).map (roundS 100)) :=
  ⟨((C3_macro_micro_averaging _).1 (by decide)).1,
   (((C3_macro_micro_averaging _).2 (by decide)) (("a").toList) (by decide)).1⟩

/-! ### Parser characterisation (C7) -/

/-- One suffix attempt succeeds exactly on an `(sep :: metric)`-suffixed label
with a non-empty remainder. -/
lemma trySuffix_eq_some {t : Str} {sep : Char} {m : Str} {r : ParsedMetricLabel} :
    trySuffix t sep m = some r ↔
      r.metric = m ∧ r.model ≠ [] ∧ t = r.model ++ sep :: m := by
  unfold trySuffix
  constructor
  · intro h
    by_cases hsuf : (sep :: m).isSuffixOf t
    · rw [if_pos hsuf] at h
      obtain ⟨p, hp⟩ := List.isSuffixOf_iff_suffix.mp hsuf
      rw [← hp] at h
      have hlen : (p ++ sep :: m).length - (sep :: m).length = p.length := by simp
      rw [hlen, List.take_left' rfl] at h
      have h' : (if p = [] then none else some (⟨p, m⟩ : ParsedMetricLabel)) = some r := h
      by_cases hemp : p = []
      · rw [if_pos hemp] at h'
        cases h'
      · rw [if_neg hemp] at h'
        obtain rfl := Option.some.inj h'
        exact ⟨rfl, hemp, hp.symm⟩
    · rw [if_neg hsuf] at h
      cases h
  · rintro ⟨hm, hmod, ht⟩
    subst ht
    have hsuf : (sep :: m).isSuffixOf (r.model ++ sep :: m) = true :=
      List.isSuffixOf_iff_suffix.mpr ⟨r.model, rfl⟩
    have htake : List.take ((r.model ++ sep :: m).length - (sep :: m).length)
        (r.model ++ sep :: m) = r.model := by
      have hlen : (r.model ++ sep :: m).length - (sep :: m).length = r.model.length := by simp
      rw [hlen, List.take_left' rfl]
    simp only [hsuf, if_true, htake]
    rw [if_neg hmod, ← hm]

/-- Soundness of the parse loop: a successful parse comes from a metric in
the list, with a non-empty model and a matching suffix decomposition. -/
lemma parseLoop_eq_some {t : Str} {ms : List Str} {r : ParsedMetricLabel}
    (h : parseLoop t ms = some r) :
    r.metric ∈ ms ∧ r.model ≠ [] ∧
      (t = r.model ++ '_' :: r.metric ∨ t = r.model ++ '-' :: r.metric) := by
  induction ms with
  | nil => cases h
  | cons m rest ih =>
    rw [parseLoop] at h
    cases h1 : trySuffix t '_' m with
    | some r' =>
      rw [h1] at h
      obtain rfl := Option.some.inj h
      obtain ⟨hm, hmod, ht⟩ := trySuffix_eq_some.mp h1
      exact ⟨by simp [hm], hmod, Or.inl (by rw [hm]; exact ht)⟩
    | none =>
      rw [h1] at h
      cases h2 : trySuffix t '-' m with
      | some r' =>
        rw [h2] at h
        obtain rfl := Option.some.inj h
        obtain ⟨hm, hmod, ht⟩ := trySuffix_eq_some.mp h2
        exact ⟨by simp [hm], hmod, Or.inr (by rw [hm]; exact ht)⟩
      | none =>
        rw [h2] at h
        obtain ⟨hmem, hmod, ht⟩ := ih h
        exact ⟨by simp [hmem], hmod, ht⟩

lemma mem_sepStrings_underscore {ms : List Str} {m : Str} (h : m ∈ ms) :
    ('_' :: m) ∈ sepStrings ms := by
  induction ms with
  | nil => cases h
  | cons m₀ rest ih =>
    rcases List.mem_cons.mp h with h | h
    · subst h; simp [sepStrings]
    · simp [sepStrings, ih h]

lemma mem_sepStrings_hyphen {ms : List Str} {m : Str} (h : m ∈ ms) :
    ('-' :: m) ∈ sepStrings ms := by
  induction ms with
  | nil => cases h
  | cons m₀ rest ih =>
    rcases List.mem_cons.mp h with h | h
    · subst h; simp [sepStrings]
    · simp [sepStrings, ih h]

/-- Two mutually non-suffix strings cannot both appear as suffixes of the
same label: `a` is no suffix of `mdl ++ b`. -/
lemma not_suffix_cross {a b mdl : Str} (hab : ¬ a <:+ b) (hba : ¬ b <:+ a) :
    ¬ a <:+ (mdl ++ b) := fun h =>
  (List.suffix_or_suffix_of_suffix h (List.suffix_append mdl b)).elim hab hba

/-- Completeness of the parse loop: a label of the form
`model ++ sep ++ metric` (non-empty model, metric in the list) parses to
exactly that decomposition, provided no tried suffix string is a suffix of
another — which rules out any earlier accidental match. -/
lemma parseLoop_complete :
    ∀ (ms : List Str) (t mdl m : Str) (sep : Char),
      (sep = '_' ∨ sep = '-') → m ∈ ms → mdl ≠ [] → t = mdl ++ sep :: m →
      (sepStrings ms).Pairwise (fun a b => ¬ a <:+ b ∧ ¬ b <:+ a) →
      parseLoop t ms = some ⟨mdl, m⟩ := by
  intro ms
  induction ms with
  | nil => intro t mdl m sep _ hmem; cases hmem
  | cons m₀ rest ih =>
    intro t mdl m sep hsep hmem hmdl ht htab
    have h0 := (List.pairwise_cons.mp htab).1
    have htab' := (List.pairwise_cons.mp htab).2
    have h1 := (List.pairwise_cons.mp htab').1
    have htail := (List.pairwise_cons.mp htab').2
    have h01 : ¬ ('_' :: m₀) <:+ ('-' :: m₀) ∧ ¬ ('-' :: m₀) <:+ ('_' :: m₀) :=
      h0 _ (by simp)
    rw [parseLoop]
    by_cases hm : m = m₀
    · subst hm
      rcases hsep with rfl | rfl
      · rw [show trySuffix t '_' m = some ⟨mdl, m⟩ from
          trySuffix_eq_some.mpr ⟨rfl, hmdl, ht⟩]
      · have hu : trySuffix t '_' m = none := by
          cases hu : trySuffix t '_' m with
          | none => rfl
          | some r' =>
            exfalso
            obtain ⟨-, -, ht'⟩ := trySuffix_eq_some.mp hu
            have hsuf1 : ('_' :: m) <:+ t := ht' ▸ List.suffix_append r'.model ('_' :: m)
            have hsuf2 : ('-' :: m) <:+ t := ht ▸ List.suffix_append mdl ('-' :: m)
            exact (List.suffix_or_suffix_of_suffix hsuf1 hsuf2).elim h01.1 h01.2
        rw [hu, show trySuffix t '-' m = some ⟨mdl, m⟩ from
          trySuffix_eq_some.mpr ⟨rfl, hmdl, ht⟩]
    · have hmem' : m ∈ rest := by
        rcases List.mem_cons.mp hmem with h | h
        · exact absurd h hm
        · exact h
      have hsm : (sep :: m) ∈ sepStrings rest := by
        rcases hsep with rfl | rfl
        · exact mem_sepStrings_underscore hmem'
        · exact mem_sepStrings_hyphen hmem'
      have hrel0 := h0 _ (List.mem_cons_of_mem _ hsm)
      have hrel1 := h1 _ hsm
      have hu : trySuffix t '_' m₀ = none := by
        cases hu : trySuffix t '_' m₀ with
        | none => rfl
        | some r' =>
          exfalso
          obtain ⟨-, -, ht'⟩ := trySuffix_eq_some.mp hu
          have hsuf : ('_' :: m₀) <:+ (mdl ++ sep :: m) :=
            ht ▸ ht' ▸ List.suffix_append r'.model ('_' :: m₀)
          exact not_suffix_cross hrel0.1 hrel0.2 hsuf
      have hh : trySuffix t '-' m₀ = none := by
        cases hh : trySuffix t '-' m₀ with
        | none => rfl
        | some r' =>
          exfalso
          obtain ⟨-, -, ht'⟩ := trySuffix_eq_some.mp hh
          have hsuf : ('-' :: m₀) <:+ (mdl ++ sep :: m) :=
            ht ▸ ht' ▸ List.suffix_append r'.model ('-' :: m₀)
          exact not_suffix_cross hrel1.1 hrel1.2 hsuf
      rw [hu, hh]
      exact ih t mdl m sep hsep hmem' hmdl ht htail

/-- No tried suffix string of the supported-metric table is a suffix of
another: the twelve `'_'/'-' + metric` strings are pairwise
suffix-incomparable. -/
lemma supported_metrics_suffix_free :
    (sepStrings SUPPORTED_METRICS).Pairwise (fun a b => ¬ a <:+ b ∧ ¬ b <:+ a) := by
  decide

/-- C7: after trimming and lower-casing, a label parses to `{model, metric}`
exactly when it decomposes as `model ++ '_' ++ metric` or
`model ++ '-' ++ metric` for a supported metric and a non-empty model; every
other label (including a bare metric name) yields `null`.  The enumeration
order's first-match policy is extensionally invisible because no tried
suffix is a suffix of another. -/
theorem C7_parse_label_characterisation (lab mdl m : Str) :
    parseMetricLabel lab = some ⟨mdl, m⟩ ↔
      (m ∈ SUPPORTED_METRICS ∧ mdl ≠ [] ∧
        (jsToLower (jsTrim lab) = mdl ++ '_' :: m ∨
          jsToLower (jsTrim lab) = mdl ++ '-' :: m)) := by
  simp only [parseMetricLabel]
  by_cases h0 : jsToLower (jsTrim lab) = []
  · rw [if_pos h0]
    constructor
    · intro h; cases h
    · rintro ⟨-, hmdl, hd | hd⟩ <;>
        · rw [h0] at hd
          exact absurd hd.symm (by simp [hmdl])
  · rw [if_neg h0]
    constructor
    · intro h
      exact parseLoop_eq_some h
    · rintro ⟨hmem, hmdl, hd | hd⟩
      · exact parseLoop_complete SUPPORTED_METRICS _ mdl m '_' (Or.inl rfl) hmem hmdl hd
          supported_metrics_suffix_free
      · exact parseLoop_complete SUPPORTED_METRICS _ mdl m '-' (Or.inr rfl) hmem hmdl hd
          supported_metrics_suffix_free

/-! ### Derived-metrics synthesizer lemmas (C4, C5) -/

/-- The `forEach` pair fold splits into its two independent component
folds. -/
lemma buildMaps_eq (d : List LongRow) :
    buildMaps d = (d.foldl energyStep [], d.foldl existingStep []) := by
  unfold buildMaps
  suffices h : ∀ (em : List (Str × JsNum)) (ex : List Str),
      d.foldl (fun maps row => (energyStep maps.1 row, existingStep maps.2 row)) (em, ex) =
        (d.foldl energyStep em, d.foldl existingStep ex) by
    exact h [] []
  induction d with
  | nil => intro em ex; rfl
  | cons r rest ih =>
    intro em ex
    rw [List.foldl_cons, List.foldl_cons, List.foldl_cons]
    exact ih _ _

lemma nodup_dedupFirst_aux :
    ∀ (l acc : List Str), acc.Nodup →
      (l.foldl (fun acc x => if x ∈ acc then acc else acc ++ [x]) acc).Nodup := by
  intro l
  induction l with
  | nil => intro acc h; exact h
  | cons a rest ih =>
    intro acc h
    rw [List.foldl_cons]
    by_cases ha : a ∈ acc
    · rw [if_pos ha]; exact ih acc h
    · rw [if_neg ha]
      refine ih _ ?_
      simp [List.nodup_append, h, ha]

lemma nodup_dedupFirst (l : List Str) : (dedupFirst l).Nodup :=
  nodup_dedupFirst_aux l [] List.nodup_nil

/-- Splitting a colon-joined key of colon-free parts recovers the parts. -/
lemma split_keyOf {r : LongRow} (h1 : ':' ∉ r.model) (h2 : ':' ∉ r.prompt) :
    jsSplit ':' (keyOf r) = [r.model, r.prompt] := by
  unfold keyOf
  rw [jsSplit_append h1, jsSplit_no_sep h2]

/-- Injectivity of the three-part `model:prompt:metric` join for colon-free
model and prompt parts. -/
lemma join3_inj {a₁ b₁ c₁ a₂ b₂ c₂ : Str} (ha₁ : ':' ∉ a₁) (ha₂ : ':' ∉ a₂)
    (hb₁ : ':' ∉ b₁) (hb₂ : ':' ∉ b₂)
    (h : (a₁ ++ ':' :: b₁) ++ ':' :: c₁ = (a₂ ++ ':' :: b₂) ++ ':' :: c₂) :
    a₁ = a₂ ∧ b₁ = b₂ ∧ c₁ = c₂ := by
  rw [List.append_assoc, List.append_assoc, List.cons_append, List.cons_append] at h
  obtain ⟨h1, h23⟩ := append_sep_inj ha₁ ha₂ h
  obtain ⟨h2, h3⟩ := append_sep_inj hb₁ hb₂ h23
  exact ⟨h1, h2, h3⟩

/-- Each entry of the `derivedMetrics` array carries a tracked metric kind
and the specification's derived value for it. -/
lemma mem_derivedList {f : Factors} {v : JsNum} {dm : Str × JsNum}
    (h : dm ∈ derivedList f v) :
    dm.1 ∈ trackedDerived ∧ dm.2 = derivedValueFor dm.1 f v := by
  unfold derivedList at h
  rcases List.mem_cons.mp h with rfl | h
  · refine ⟨by simp [trackedDerived], ?_⟩
    show jsMulQ (jsDivQ v 1000) f.gridIntensityGCO2PerKwh = derivedValueFor co2M f v
    unfold derivedValueFor
    rw [if_pos rfl]
  · rcases List.mem_cons.mp h with rfl | h
    · refine ⟨by simp [trackedDerived], ?_⟩
      show jsMulQ (jsDivQ v f.ledBulbWatts) 60 = derivedValueFor ledMinutesM f v
      unfold derivedValueFor
      rw [if_neg (show ¬ ledMinutesM = co2M by decide), if_pos rfl]
    · rcases List.mem_cons.mp h with rfl | h
      · refine ⟨by simp [trackedDerived], ?_⟩
        show jsDivQ v f.onlineVideoWhPerMin = derivedValueFor onlinevideoM f v
        unfold derivedValueFor
        rw [if_neg (show ¬ onlinevideoM = co2M by decide),
          if_neg (show ¬ onlinevideoM = ledMinutesM by decide)]
      · cases h

/-- Master lemma for the `existingMetrics` set: it holds exactly the
`metricKeyOf` strings of the tracked rows, first-appearance ordered. -/
lemma existingFold_eq (d : List LongRow) :
    d.foldl existingStep [] =
      dedupFirst ((d.filter (fun r => decide (r.metric ∈ trackedDerived))).map metricKeyOf) := by
  induction d using List.reverseRecOn with
  | nil => rfl
  | append_singleton d r ih =>
    rw [List.foldl_append, List.foldl_cons, List.foldl_nil, ih]
    unfold existingStep
    by_cases ht : r.metric ∈ trackedDerived
    · rw [if_pos ht, List.filter_append]
      have hf : List.filter (fun r' => decide (r'.metric ∈ trackedDerived)) [r] = [r] := by
        simp [ht]
      rw [hf, List.map_append, List.map_cons, List.map_nil, dedupFirst_append_singleton]
      rfl
    · rw [if_neg ht, List.filter_append]
      have hf : List.filter (fun r' => decide (r'.metric ∈ trackedDerived)) [r] = [] := by
        simp [ht]
      rw [hf, List.append_nil]

/-- Membership in the `existingMetrics` set. -/
lemma mem_existingFold {d : List LongRow} {k : Str} :
    k ∈ d.foldl existingStep [] ↔
      ∃ r ∈ d, r.metric ∈ trackedDerived ∧ k = metricKeyOf r := by
  rw [existingFold_eq, mem_dedupFirst]
  constructor
  · intro h
    obtain ⟨r, hr, hrk⟩ := List.mem_map.mp h
    obtain ⟨hrd, hcond⟩ := List.mem_filter.mp hr
    exact ⟨r, hrd, of_decide_eq_true hcond, hrk.symm⟩
  · rintro ⟨r, hrd, ht, rfl⟩
    exact List.mem_map.mpr ⟨r, List.mem_filter.mpr ⟨hrd, decide_eq_true ht⟩, rfl⟩

/-- Master lemma for the energy map: it is the insertion-ordered key list,
each key carrying the value of its last `energy_wh` record. -/
lemma energyFold_eq (d : List LongRow) :
    d.foldl energyStep [] = (energyKeys d).map (fun k => (k, energyValAtKey d k)) := by
  induction d using List.reverseRecOn with
  | nil => rfl
  | append_singleton d r ih =>
    rw [List.foldl_append, List.foldl_cons, List.foldl_nil, ih]
    unfold energyStep
    by_cases hmet : r.metric = energyM
    · rw [if_pos hmet]
      have hfilter_r : List.filter (fun r' => decide (r'.metric = energyM)) [r] = [r] := by
        simp [hmet]
      have hval : ∀ k, energyValAtKey (d ++ [r]) k =
          if keyOf r = k then r.value else energyValAtKey d k := by
        intro k
        unfold energyValAtKey
        rw [List.filter_append]
        by_cases hk : keyOf r = k
        · have hf : List.filter
              (fun r' => decide (r'.metric = energyM) && decide (keyOf r' = k)) [r] = [r] := by
            simp [hmet, hk]
          rw [hf, List.map_append, List.map_cons, List.map_nil, List.getLast?_concat]
          rw [if_pos hk]
          rfl
        · have hf : List.filter
              (fun r' => decide (r'.metric = energyM) && decide (keyOf r' = k)) [r] = [] := by
            simp [hk]
          rw [hf, List.append_nil, if_neg hk]
      by_cases hmem : keyOf r ∈ energyKeys d
      · have hkeys : energyKeys (d ++ [r]) = energyKeys d := by
          unfold energyKeys
          rw [List.filter_append, hfilter_r, List.map_append]
          simp only [List.map_cons, List.map_nil]
          rw [dedupFirst_append_singleton]
          exact if_pos hmem
        rw [mapSet_keyMap_mem _ _ _ _ hmem, hkeys]
        apply List.map_congr_left
        intro k hk
        rw [hval k]
        by_cases hkr : k = keyOf r
        · subst hkr; simp
        · rw [if_neg hkr, if_neg (fun h => hkr h.symm)]
      · have hkeys : energyKeys (d ++ [r]) = energyKeys d ++ [keyOf r] := by
          unfold energyKeys
          rw [List.filter_append, hfilter_r, List.map_append]
          simp only [List.map_cons, List.map_nil]
          rw [dedupFirst_append_singleton]
          exact if_neg hmem
        rw [mapSet_keyMap_not_mem _ _ _ _ hmem, hkeys, List.map_append]
        congr 1
        · apply List.map_congr_left
          intro k hk
          rw [hval k, if_neg (fun h => hmem (by rw [h]; exact hk))]
        · simp only [List.map_cons, List.map_nil]
          rw [hval (keyOf r), if_pos rfl]
    · rw [if_neg hmet]
      have hkeys : energyKeys (d ++ [r]) = energyKeys d := by
        unfold energyKeys
        rw [List.filter_append]
        have hf : List.filter (fun r' => decide (r'.metric = energyM)) [r] = [] := by
          simp [hmet]
        rw [hf, List.append_nil]
      rw [hkeys]
      apply List.map_congr_left
      intro k hk
      have hval : energyValAtKey (d ++ [r]) k = energyValAtKey d k := by
        unfold energyValAtKey
        rw [List.filter_append]
        have hf : List.filter
            (fun r' => decide (r'.metric = energyM) && decide (keyOf r' = k)) [r] = [] := by
          simp [hmet]
        rw [hf, List.append_nil]
      rw [hval]

/-- Anything in the result of one derived-metric step was already present or
is the step's pushed record. -/
lemma mem_entryStep {o : Bool} {ex : List Str} {key mdl pr : Str}
    {res : List LongRow} {dm : Str × JsNum} {x : LongRow}
    (hx : x ∈ entryStep o ex key mdl pr res dm) :
    x ∈ res ∨ x = ⟨mdl, pr, dm.1, round3 dm.2⟩ := by
  unfold entryStep at hx
  by_cases hc : o = true ∨ (key ++ ':' :: dm.1) ∉ ex
  · rw [if_pos hc] at hx
    rcases List.mem_append.mp hx with hx | hx
    · left
      by_cases ho : o
      · rw [if_pos ho] at hx
        exact (List.eraseP_sublist res).subset hx
      · rw [if_neg ho] at hx
        exact hx
    · right
      simpa using hx
  · rw [if_neg hc] at hx
    exact Or.inl hx

/-- Anything in the result of one `energyMap.forEach` entry was already
present or is one of the entry's pushed records. -/
lemma mem_processEntry {o : Bool} {ex : List Str} {f : Factors}
    {res : List LongRow} {e : Str × JsNum} {x : LongRow}
    (hx : x ∈ processEntry o ex f res e) :
    x ∈ res ∨ ∃ dm ∈ derivedList f e.2,
      x = ⟨(jsSplit ':' e.1).getD 0 [], (jsSplit ':' e.1).getD 1 [],
        dm.1, round3 dm.2⟩ := by
  unfold processEntry at hx
  suffices h : ∀ (dms : List (Str × JsNum)) (res' : List LongRow),
      x ∈ dms.foldl (entryStep o ex e.1
        ((jsSplit ':' e.1).getD 0 []) ((jsSplit ':' e.1).getD 1 [])) res' →
      x ∈ res' ∨ ∃ dm ∈ dms,
        x = ⟨(jsSplit ':' e.1).getD 0 [], (jsSplit ':' e.1).getD 1 [],
          dm.1, round3 dm.2⟩ by
    exact h _ _ hx
  intro dms
  induction dms with
  | nil => intro res' hres; exact Or.inl hres
  | cons dm rest ih =>
    intro res' hres
    rw [List.foldl_cons] at hres
    rcases ih _ hres with hmem | ⟨dm', hdm', rfl⟩
    · rcases mem_entryStep hmem with hmem | rfl
      · exact Or.inl hmem
      · exact Or.inr ⟨dm, by simp, rfl⟩
    · exact Or.inr ⟨dm', by simp [hdm'], rfl⟩

/-- With `override = false` a derived-metric step only appends. -/
lemma entryStep_false_eq (ex : List Str) (key mdl pr : Str)
    (res : List LongRow) (dm : Str × JsNum) :
    entryStep false ex key mdl pr res dm =
      res ++ (if (key ++ ':' :: dm.1) ∉ ex
        then [⟨mdl, pr, dm.1, round3 dm.2⟩] else []) := by
  unfold entryStep
  by_cases hc : (key ++ ':' :: dm.1) ∉ ex
  · rw [if_pos (Or.inr hc), if_pos hc]
    rfl
  · rw [if_neg (by simpa using hc), if_neg hc, List.append_nil]

/-- With `override = false` one entry appends exactly its non-blocked
records. -/
lemma processEntry_false_eq (ex : List Str) (f : Factors)
    (res : List LongRow) (e : Str × JsNum) :
    processEntry false ex f res e = res ++ pushesOf ex f e := by
  unfold processEntry pushesOf
  suffices h : ∀ (dms : List (Str × JsNum)) (res' : List LongRow),
      dms.foldl (entryStep false ex e.1
        ((jsSplit ':' e.1).getD 0 []) ((jsSplit ':' e.1).getD 1 [])) res' =
      res' ++ dms.filterMap (fun dm =>
        if (e.1 ++ ':' :: dm.1) ∉ ex then
          some ⟨(jsSplit ':' e.1).getD 0 [], (jsSplit ':' e.1).getD 1 [],
            dm.1, round3 dm.2⟩
        else none) by
    exact h _ _
  intro dms
  induction dms with
  | nil => intro res'; simp
  | cons dm rest ih =>
    intro res'
    rw [List.foldl_cons, entryStep_false_eq, ih, List.filterMap_cons]
    by_cases hc : (e.1 ++ ':' :: dm.1) ∉ ex
    · rw [if_pos hc, if_pos hc, List.append_assoc]
      rfl
    · rw [if_neg hc, if_neg hc, List.append_nil]

/-- With `override = false` the whole synthesizer run appends the per-entry
pushes to the unchanged input. -/
lemma addDerivedMetrics_false_eq (d : List LongRow) (f : Factors) :
    addDerivedMetrics d f false =
      d ++ (((d.foldl energyStep []).map (pushesOf (d.foldl existingStep []) f)).flatten) := by
  unfold addDerivedMetrics
  rw [buildMaps_eq]
  suffices h : ∀ (entries : List (Str × JsNum)) (res : List LongRow),
      entries.foldl (processEntry false (d.foldl existingStep []) f) res =
        res ++ ((entries.map (pushesOf (d.foldl existingStep []) f)).flatten) by
    exact h _ _
  intro entries
  induction entries with
  | nil => intro res; simp
  | cons e rest ih =>
    intro res
    rw [List.foldl_cons, processEntry_false_eq, ih, List.map_cons, List.flatten_cons,
      List.append_assoc]

/-- Membership in the pushed records of one entry. -/
lemma mem_pushesOf {ex : List Str} {f : Factors} {e : Str × JsNum} {a : LongRow} :
    a ∈ pushesOf ex f e ↔
      ∃ dm ∈ derivedList f e.2, (e.1 ++ ':' :: dm.1) ∉ ex ∧
        a = ⟨(jsSplit ':' e.1).getD 0 [], (jsSplit ':' e.1).getD 1 [],
          dm.1, round3 dm.2⟩ := by
  unfold pushesOf
  rw [List.mem_filterMap]
  constructor
  · rintro ⟨dm, hdm, hf⟩
    by_cases hc : (e.1 ++ ':' :: dm.1) ∉ ex
    · rw [if_pos hc] at hf
      exact ⟨dm, hdm, hc, (Option.some.inj hf).symm⟩
    · rw [if_neg hc] at hf
      cases hf
  · rintro ⟨dm, hdm, hc, rfl⟩
    exact ⟨dm, hdm, by rw [if_pos hc]⟩

/-! ### Override splice projection lemmas -/

/-- Erasing by a predicate disjoint from the filter leaves the filter
unchanged. -/
lemma filter_eraseP_of_none {l : List LongRow} {q P : LongRow → Bool}
    (h : ∀ x, q x = true → P x = false) :
    (l.eraseP q).filter P = l.filter P := by
  induction l with
  | nil => rfl
  | cons a rest ih =>
    rw [List.eraseP_cons]
    by_cases hq : q a
    · rw [hq]
      simp only [cond_true]
      rw [List.filter_cons, h a hq]
      simp
    · rw [Bool.not_eq_true] at hq
      rw [hq]
      simp only [cond_false]
      rw [List.filter_cons, List.filter_cons, ih]

/-- Erasing by the filter predicate itself drops exactly the first filtered
element. -/
lemma filter_eraseP_self {l : List LongRow} {P : LongRow → Bool} :
    (l.eraseP P).filter P = (l.filter P).tail := by
  induction l with
  | nil => rfl
  | cons a rest ih =>
    rw [List.eraseP_cons]
    by_cases hq : P a
    · rw [hq]
      simp only [cond_true]
      rw [List.filter_cons_of_pos hq]
      rfl
    · rw [Bool.not_eq_true] at hq
      rw [hq]
      simp only [cond_false]
      rw [List.filter_cons, List.filter_cons, hq, ih]
      simp

/-- One override step for a different `(model, prompt)` pair leaves the
triple projection unchanged. -/
lemma entryStep_true_filter_other {ex : List Str} {key em ep mdl pr met : Str}
    {res : List LongRow} {dm : Str × JsNum} (hne : ¬(em = mdl ∧ ep = pr)) :
    (entryStep true ex key em ep res dm).filter (tripleP mdl pr met) =
      res.filter (tripleP mdl pr met) := by
  unfold entryStep
  rw [if_pos (Or.inl rfl), if_pos rfl, List.filter_append]
  have hpush : List.filter (tripleP mdl pr met) [⟨em, ep, dm.1, round3 dm.2⟩] = [] := by
    simp only [List.filter_cons, List.filter_nil]
    have : tripleP mdl pr met ⟨em, ep, dm.1, round3 dm.2⟩ = false := by
      unfold tripleP
      simp only [decide_eq_false_iff_not]
      rintro ⟨h1, h2, h3⟩
      exact hne ⟨h1, h2⟩
    rw [this]
    simp
  rw [hpush, List.append_nil]
  apply filter_eraseP_of_none
  intro x hx
  unfold tripleP at hx ⊢
  simp only [decide_eq_true_eq] at hx
  simp only [decide_eq_false_iff_not]
  rintro ⟨h1, h2, h3⟩
  exact hne ⟨hx.1 ▸ h1, hx.2.1 ▸ h2⟩

/-- One override step for the targeted `(model, prompt)` pair: on the
matching metric it drops the first matching record and appends the computed
one; on the other metrics it leaves the projection unchanged. -/
lemma entryStep_true_filter_target {ex : List Str} {key mdl pr met : Str}
    {res : List LongRow} {dm : Str × JsNum} :
    (entryStep true ex key mdl pr res dm).filter (tripleP mdl pr met) =
      if dm.1 = met then
        (res.filter (tripleP mdl pr met)).tail ++ [⟨mdl, pr, dm.1, round3 dm.2⟩]
      else res.filter (tripleP mdl pr met) := by
  unfold entryStep
  rw [if_pos (Or.inl rfl), if_pos rfl, List.filter_append]
  by_cases hm : dm.1 = met
  · rw [if_pos hm]
    have hpred : (fun row =>
        decide (row.model = mdl ∧ row.prompt = pr ∧ row.metric = dm.1)) =
          tripleP mdl pr met := by
      funext row
      unfold tripleP
      rw [hm]
    rw [hpred, filter_eraseP_self]
    have hpush : List.filter (tripleP mdl pr met) [⟨mdl, pr, dm.1, round3 dm.2⟩] =
        [⟨mdl, pr, dm.1, round3 dm.2⟩] := by
      simp [tripleP, hm]
    rw [hpush]
  · rw [if_neg hm]
    have hpush : List.filter (tripleP mdl pr met) [⟨mdl, pr, dm.1, round3 dm.2⟩] = [] := by
      simp [tripleP, hm]
    rw [hpush, List.append_nil]
    apply filter_eraseP_of_none
    intro x hx
    simp only [decide_eq_true_eq] at hx
    unfold tripleP
    simp only [decide_eq_false_iff_not]
    rintro ⟨h1, h2, h3⟩
    exact hm (hx.2.2.symm.trans h3)

/-- An entry for a different `(model, prompt)` pair leaves the triple
projection unchanged. -/
lemma processEntry_true_filter_other {ex : List Str} {f : Factors}
    {res : List LongRow} {e : Str × JsNum} {mdl pr met : Str}
    (hne : ¬((jsSplit ':' e.1).getD 0 [] = mdl ∧ (jsSplit ':' e.1).getD 1 [] = pr)) :
    (processEntry true ex f res e).filter (tripleP mdl pr met) =
      res.filter (tripleP mdl pr met) := by
  unfold processEntry
  suffices h : ∀ (dms : List (Str × JsNum)) (res' : List LongRow),
      (dms.foldl (entryStep true ex e.1
        ((jsSplit ':' e.1).getD 0 []) ((jsSplit ':' e.1).getD 1 [])) res').filter
          (tripleP mdl pr met) = res'.filter (tripleP mdl pr met) by
    exact h _ _
  intro dms
  induction dms with
  | nil => intro res'; rfl
  | cons dm rest ih =>
    intro res'
    rw [List.foldl_cons, ih, entryStep_true_filter_other hne]

/-- The entry for the targeted `(model, prompt)` pair with a tracked metric
replaces the first matching record by the computed one in the triple
projection. -/
lemma processEntry_true_filter_target {ex : List Str} {f : Factors}
    {res : List LongRow} {e : Str × JsNum} {mdl pr met : Str}
    (h0 : (jsSplit ':' e.1).getD 0 [] = mdl) (h1 : (jsSplit ':' e.1).getD 1 [] = pr)
    (hmet : met ∈ trackedDerived) :
    (processEntry true ex f res e).filter (tripleP mdl pr met) =
      (res.filter (tripleP mdl pr met)).tail ++
        [⟨mdl, pr, met, round3 (derivedValueFor met f e.2)⟩] := by
  unfold processEntry derivedList
  rw [h0, h1, List.foldl_cons, List.foldl_cons, List.foldl_cons, List.foldl_nil]
  rw [entryStep_true_filter_target, entryStep_true_filter_target,
    entryStep_true_filter_target]
  unfold trackedDerived at hmet
  rcases List.mem_cons.mp hmet with rfl | hmet
  · rw [if_pos rfl, if_neg (show ¬ ledMinutesM = co2M by decide),
      if_neg (show ¬ onlinevideoM = co2M by decide)]
    unfold derivedValueFor
    rw [if_pos rfl]
  · rcases List.mem_cons.mp hmet with rfl | hmet
    · rw [if_neg (show ¬ co2M = ledMinutesM by decide), if_pos rfl,
        if_neg (show ¬ onlinevideoM = ledMinutesM by decide)]
      unfold derivedValueFor
      rw [if_neg (show ¬ ledMinutesM = co2M by decide), if_pos rfl]
    · rcases List.mem_cons.mp hmet with rfl | hmet
      · rw [if_neg (show ¬ co2M = onlinevideoM by decide),
          if_neg (show ¬ ledMinutesM = onlinevideoM by decide), if_pos rfl]
        unfold derivedValueFor
        rw [if_neg (show ¬ onlinevideoM = co2M by decide),
          if_neg (show ¬ onlinevideoM = ledMinutesM by decide)]
      · cases hmet

/-! ### Energy-key bridges -/

/-- Membership in the energy key list. -/
lemma mem_energyKeys {d : List LongRow} {k : Str} :
    k ∈ energyKeys d ↔ ∃ er ∈ d, er.metric = energyM ∧ k = keyOf er := by
  unfold energyKeys
  rw [mem_dedupFirst]
  constructor
  · intro h
    obtain ⟨er, her, hk⟩ := List.mem_map.mp h
    obtain ⟨herd, hcond⟩ := List.mem_filter.mp her
    exact ⟨er, herd, of_decide_eq_true hcond, hk.symm⟩
  · rintro ⟨er, herd, hmet, rfl⟩
    exact List.mem_map.mpr ⟨er, List.mem_filter.mpr ⟨herd, decide_eq_true hmet⟩, rfl⟩

/-- An energy reading for `(mdl, pr)` comes from an actual `energy_wh` row
with that model and prompt. -/
lemma energyAt_some_row {d : List LongRow} {mdl pr : Str} {e : JsNum}
    (he : energyAt d mdl pr = some e) :
    ∃ er ∈ d, er.metric = energyM ∧ er.model = mdl ∧ er.prompt = pr := by
  unfold energyAt at he
  by_contra hno
  push_neg at hno
  have hfil : d.filter (fun r =>
      decide (r.metric = energyM) && decide (r.model = mdl) && decide (r.prompt = pr)) = [] := by
    rw [List.filter_eq_nil_iff]
    intro r hr
    intro hcond
    obtain ⟨h12, h3⟩ := Bool.and_eq_true_iff.mp hcond
    obtain ⟨h1, h2⟩ := Bool.and_eq_true_iff.mp h12
    exact hno r hr (of_decide_eq_true h1) (of_decide_eq_true h2) (of_decide_eq_true h3)
  rw [hfil] at he
  cases he

/-- Under colon-free models, filtering energy rows by joined key equals
filtering by the `(model, prompt)` pair. -/
lemma energy_filter_congr {d : List LongRow} {mdl pr : Str}
    (hnc : ∀ r ∈ d, ':' ∉ r.model) (hm : ':' ∉ mdl) :
    d.filter (fun r => decide (r.metric = energyM) && decide (keyOf r = mdl ++ ':' :: pr)) =
      d.filter (fun r =>
        decide (r.metric = energyM) && decide (r.model = mdl) && decide (r.prompt = pr)) := by
  apply List.filter_congr
  intro r hr
  have hcm := hnc r hr
  by_cases h2 : r.model = mdl
  · by_cases h3 : r.prompt = pr
    · have hkey : keyOf r = mdl ++ ':' :: pr := by unfold keyOf; rw [h2, h3]
      simp [hkey, h2, h3]
    · have hkey : ¬ keyOf r = mdl ++ ':' :: pr := fun hh => h3 (append_sep_inj hcm hm hh).2
      simp [hkey, h3]
  · have hkey : ¬ keyOf r = mdl ++ ':' :: pr := fun hh => h2 (append_sep_inj hcm hm hh).1
    simp [hkey, h2]

/-- The energy-map value at a joined key is the pair's energy reading. -/
lemma energyValAtKey_join {d : List LongRow} {mdl pr : Str} {e : JsNum}
    (hnc : ∀ r ∈ d, ':' ∉ r.model) (hm : ':' ∉ mdl)
    (he : energyAt d mdl pr = some e) :
    energyValAtKey d (mdl ++ ':' :: pr) = e := by
  unfold energyValAtKey
  rw [energy_filter_congr hnc hm]
  unfold energyAt at he
  rw [he]
  rfl

/-- A run over entries that never target `(mdl, pr)` leaves the triple
projection unchanged. -/
lemma foldl_processEntry_true_filter_none {ex : List Str} {f : Factors}
    {mdl pr met : Str} :
    ∀ (entries : List (Str × JsNum)) (res : List LongRow),
      (∀ e' ∈ entries,
        ¬((jsSplit ':' e'.1).getD 0 [] = mdl ∧ (jsSplit ':' e'.1).getD 1 [] = pr)) →
      ((entries.foldl (processEntry true ex f) res).filter (tripleP mdl pr met)) =
        res.filter (tripleP mdl pr met) := by
  intro entries
  induction entries with
  | nil => intro res _; rfl
  | cons e' rest ih =>
    intro res h
    rw [List.foldl_cons, ih _ (fun x hx => h x (by simp [hx])),
      processEntry_true_filter_other (h e' (by simp))]

/-- With `override = true`, the run replaces — in the projection to the
`(mdl, pr, met)` triple — the first matching record by the freshly computed
one. -/
lemma addDerivedMetrics_true_filter {d : List LongRow} {f : Factors}
    {mdl pr met : Str} {e : JsNum}
    (hnc : ∀ r ∈ d, ':' ∉ r.model ∧ ':' ∉ r.prompt)
    (hmet : met ∈ trackedDerived)
    (he : energyAt d mdl pr = some e) :
    (addDerivedMetrics d f true).filter (tripleP mdl pr met) =
      (d.filter (tripleP mdl pr met)).tail ++
        [⟨mdl, pr, met, round3 (derivedValueFor met f e)⟩] := by
  obtain ⟨er, herd, hermet, hermdl, herpr⟩ := energyAt_some_row he
  have hmcol : ':' ∉ mdl := hermdl ▸ (hnc er herd).1
  have hpcol : ':' ∉ pr := herpr ▸ (hnc er herd).2
  have hkmem : (mdl ++ ':' :: pr) ∈ energyKeys d :=
    mem_energyKeys.mpr ⟨er, herd, hermet, by unfold keyOf; rw [hermdl, herpr]⟩
  have hsplitk : jsSplit ':' (mdl ++ ':' :: pr) = [mdl, pr] := by
    rw [jsSplit_append hmcol, jsSplit_no_sep hpcol]
  have htarget : ∀ k ∈ energyKeys d,
      ((jsSplit ':' k).getD 0 [] = mdl ∧ (jsSplit ':' k).getD 1 [] = pr) →
        k = mdl ++ ':' :: pr := by
    rintro k hk ⟨h0, h1⟩
    obtain ⟨er', her', -, rfl⟩ := mem_energyKeys.mp hk
    rw [split_keyOf (hnc er' her').1 (hnc er' her').2] at h0 h1
    simp only [List.getD] at h0 h1
    unfold keyOf
    rw [show er'.model = mdl from by simpa using h0, show er'.prompt = pr from by simpa using h1]
  obtain ⟨s, t, hst⟩ := List.append_of_mem hkmem
  have hnd : (energyKeys d).Nodup := nodup_dedupFirst _
  rw [hst] at hnd
  obtain ⟨hnds, hndrest, hdisj⟩ := List.nodup_append.mp hnd
  have hks : (mdl ++ ':' :: pr) ∉ s := fun hmem' => hdisj hmem' (by simp)
  have hkt : (mdl ++ ':' :: pr) ∉ t := (List.nodup_cons.mp hndrest).1
  have h1 : (buildMaps d).1 = d.foldl energyStep [] := by rw [buildMaps_eq]
  have h2 : (buildMaps d).2 = d.foldl existingStep [] := by rw [buildMaps_eq]
  show ((buildMaps d).1.foldl (processEntry true (buildMaps d).2 f) d).filter
      (tripleP mdl pr met) = _
  rw [h1, h2, energyFold_eq, hst, List.map_append, List.map_cons, List.foldl_append,
    List.foldl_cons]
  have hsub : s ⊆ energyKeys d := by rw [hst]; exact fun x hx => by simp [hx]
  have htsub : t ⊆ energyKeys d := by
    rw [hst]; exact fun x hx => by simp [hx]
  rw [foldl_processEntry_true_filter_none]
  · rw [processEntry_true_filter_target (by rw [hsplitk]; rfl) (by rw [hsplitk]; rfl) hmet]
    rw [energyValAtKey_join (fun r hr => (hnc r hr).1) hmcol he]
    rw [foldl_processEntry_true_filter_none]
    intro e' he'
    obtain ⟨k, hk, rfl⟩ := List.mem_map.mp he'
    intro hpair
    exact hks ((htarget k (hsub hk) hpair) ▸ hk)
  · intro e' he'
    obtain ⟨k, hk, rfl⟩ := List.mem_map.mp he'
    intro hpair
    exact hkt ((htarget k (htsub hk) hpair) ▸ hk)

/-- Under pairwise-distinct triples, the projection of the input to a
present record's triple is exactly that record. -/
lemma filter_triple_unique {d : List LongRow} {r : LongRow} (hr : r ∈ d)
    (hdup : d.Pairwise (fun a b => ¬ sameTriple a b)) :
    d.filter (tripleP r.model r.prompt r.metric) = [r] := by
  induction d with
  | nil => cases hr
  | cons a rest ih =>
    rw [List.pairwise_cons] at hdup
    rcases List.mem_cons.mp hr with rfl | hr'
    · rw [List.filter_cons_of_pos (by simp [tripleP])]
      have hnil : rest.filter (tripleP r.model r.prompt r.metric) = [] := by
        rw [List.filter_eq_nil_iff]
        intro b hb hcond
        obtain ⟨hb1, hb2, hb3⟩ := of_decide_eq_true hcond
        exact hdup.1 b hb ⟨hb1.symm, hb2.symm, hb3.symm⟩
      rw [hnil]
    · have hpa : tripleP r.model r.prompt r.metric a = false := by
        unfold tripleP
        simp only [decide_eq_false_iff_not]
        rintro ⟨hb1, hb2, hb3⟩
        exact hdup.1 r hr' ⟨hb1, hb2, hb3⟩
      rw [List.filter_cons_of_neg (by simp [hpa])]
      exact ih hr' hdup.2

/-- Each tracked metric's specification value occurs in the
`derivedMetrics` array. -/
lemma derivedValueFor_mem {f : Factors} {v : JsNum} {met : Str}
    (hmet : met ∈ trackedDerived) :
    (met, derivedValueFor met f v) ∈ derivedList f v := by
  unfold trackedDerived at hmet
  rcases List.mem_cons.mp hmet with rfl | hmet
  · unfold derivedValueFor
    rw [if_pos rfl]
    simp [derivedList]
  · rcases List.mem_cons.mp hmet with rfl | hmet
    · unfold derivedValueFor
      rw [if_neg (show ¬ ledMinutesM = co2M by decide), if_pos rfl]
      simp [derivedList]
    · rcases List.mem_cons.mp hmet with rfl | hmet
      · unfold derivedValueFor
        rw [if_neg (show ¬ onlinevideoM = co2M by decide),
          if_neg (show ¬ onlinevideoM = ledMinutesM by decide)]
        simp [derivedList]
      · cases hmet

/-- Any `energy_wh` row of the relation witnesses an energy reading for its
pair. -/
lemma energyAt_of_row {d : List LongRow} {er : LongRow} (herd : er ∈ d)
    (hmet : er.metric = energyM) :
    ∃ ev, energyAt d er.model er.prompt = some ev := by
  unfold energyAt
  have hmem : er ∈ d.filter (fun r =>
      decide (r.metric = energyM) && decide (r.model = er.model) &&
        decide (r.prompt = er.prompt)) :=
    List.mem_filter.mpr ⟨herd, by simp [hmet]⟩
  have hne : (d.filter (fun r =>
      decide (r.metric = energyM) && decide (r.model = er.model) &&
        decide (r.prompt = er.prompt))).map (·.value) ≠ [] := by
    simp only [ne_eq, List.map_eq_nil_iff]
    exact List.ne_nil_of_mem hmem
  cases hl : ((d.filter (fun r =>
      decide (r.metric = energyM) && decide (r.model = er.model) &&
        decide (r.prompt = er.prompt))).map (·.value)).getLast? with
  | none => exact absurd (List.getLast?_eq_none_iff.mp hl) hne
  | some ev => exact ⟨ev, rfl⟩

/-- Everything the synthesizer returns is an input record or one of the
per-entry computed records. -/
lemma mem_addDerivedMetrics {d : List LongRow} {f : Factors} {o : Bool} {a : LongRow}
    (ha : a ∈ addDerivedMetrics d f o) :
    a ∈ d ∨ ∃ k ∈ energyKeys d, ∃ dm ∈ derivedList f (energyValAtKey d k),
      a = ⟨(jsSplit ':' k).getD 0 [], (jsSplit ':' k).getD 1 [],
        dm.1, round3 dm.2⟩ := by
  have h1 : (buildMaps d).1 = d.foldl energyStep [] := by rw [buildMaps_eq]
  have h2 : (buildMaps d).2 = d.foldl existingStep [] := by rw [buildMaps_eq]
  have ha' : a ∈ (buildMaps d).1.foldl (processEntry o (buildMaps d).2 f) d := ha
  rw [h1, h2, energyFold_eq] at ha'
  suffices h : ∀ (entries : List (Str × JsNum)) (res : List LongRow),
      a ∈ entries.foldl (processEntry o (d.foldl existingStep []) f) res →
      a ∈ res ∨ ∃ e' ∈ entries, ∃ dm ∈ derivedList f e'.2,
        a = ⟨(jsSplit ':' e'.1).getD 0 [], (jsSplit ':' e'.1).getD 1 [],
          dm.1, round3 dm.2⟩ by
    rcases h _ _ ha' with hd | ⟨e', he', dm, hdm, rfl⟩
    · exact Or.inl hd
    · obtain ⟨k, hk, rfl⟩ := List.mem_map.mp he'
      exact Or.inr ⟨k, hk, dm, hdm, rfl⟩
  intro entries
  induction entries with
  | nil => intro res h; exact Or.inl h
  | cons e' rest ih =>
    intro res h
    rw [List.foldl_cons] at h
    rcases ih _ h with hmem | ⟨e'', he'', rest'⟩
    · rcases mem_processEntry hmem with hmem | ⟨dm, hdm, rfl⟩
      · exact Or.inl hmem
      · exact Or.inr ⟨e', by simp, dm, hdm, rfl⟩
    · exact Or.inr ⟨e'', by simp [he''], rest'⟩

/-- C4 (amended: restricted to relations whose models and prompts contain no
`':'` and which hold at most one record per `(model, prompt, metric)`
triple): with `override=false` the synthesizer only appends — every
pre-existing record stays, and no computed duplicate is added for the triple
of any pre-existing derived-kind record; with `override=true`, for every
pre-existing derived-kind record of a pair with an energy reading `e`, the
output holds exactly one record with that triple, carrying the freshly
computed value. -/
theorem C4_override_policy (d : List LongRow) (f : Factors)
    (hnc : ∀ r ∈ d, ':' ∉ r.model ∧ ':' ∉ r.prompt)
    (hdup : d.Pairwise (fun a b => ¬ sameTriple a b)) :
    (∃ added, addDerivedMetrics d f false = d ++ added ∧
        ∀ r ∈ d, r.metric ∈ trackedDerived → ∀ a ∈ added, ¬ sameTriple a r) ∧
      (∀ r ∈ d, r.metric ∈ trackedDerived →
        ∀ e, energyAt d r.model r.prompt = some e →
          (addDerivedMetrics d f true).filter (tripleP r.model r.prompt r.metric) =
            [⟨r.model, r.prompt, r.metric, round3 (derivedValueFor r.metric f e)⟩]) := by
  constructor
  · refine ⟨_, addDerivedMetrics_false_eq d f, ?_⟩
    intro r hr htr a ha
    rw [List.mem_flatten] at ha
    obtain ⟨l, hl, hal⟩ := ha
    obtain ⟨entry, hentry, rfl⟩ := List.mem_map.mp hl
    rw [energyFold_eq] at hentry
    obtain ⟨k, hk, rfl⟩ := List.mem_map.mp hentry
    obtain ⟨er, herd, hermet, rfl⟩ := mem_energyKeys.mp hk
    rw [mem_pushesOf] at hal
    obtain ⟨dm, hdm, hnotex, rfl⟩ := hal
    intro hsame
    have hm1 : (jsSplit ':' (keyOf er)).getD 0 [] = r.model := hsame.1
    have hm2 : (jsSplit ':' (keyOf er)).getD 1 [] = r.prompt := hsame.2.1
    have hm3 : dm.1 = r.metric := hsame.2.2
    rw [split_keyOf (hnc er herd).1 (hnc er herd).2] at hm1 hm2
    simp only [List.getD] at hm1 hm2
    have h1 : er.model = r.model := by simpa using hm1
    have h2 : er.prompt = r.prompt := by simpa using hm2
    apply hnotex
    rw [mem_existingFold]
    refine ⟨r, hr, htr, ?_⟩
    unfold metricKeyOf keyOf
    rw [h1, h2, hm3]
  · intro r hr htr e he
    rw [addDerivedMetrics_true_filter hnc htr he, filter_triple_unique hr hdup]
    rfl

/-- C4 witness: a relation with an energy row and a pre-existing `co2_g`
record — with `override=false` the input is preserved and no duplicate
`co2_g` record appears; with `override=true` the `co2_g` record is replaced
by the computed value. -/
theorem C4_override_policy_witness :
    (∃ added, addDerivedMetrics exampleRelation DEFAULT_FACTORS false =
        exampleRelation ++ added ∧
        ∀ r ∈ exampleRelation, r.metric ∈ trackedDerived →
          ∀ a ∈ added, ¬ sameTriple a r) ∧
      (∀ r ∈ exampleRelation, r.metric ∈ trackedDerived →
        ∀ e, energyAt exampleRelation r.model r.prompt = some e →
          (addDerivedMetrics exampleRelation DEFAULT_FACTORS true).filter
            (tripleP r.model r.prompt r.metric) =
            [⟨r.model, r.prompt, r.metric,
              round3 (derivedValueFor r.metric DEFAULT_FACTORS e)⟩]) :=
  C4_override_policy exampleRelation DEFAULT_FACTORS (by decide) (by decide)

/-- C4 counterexample: as stated over all relations the claim fails.  With
`override=false`, a prompt containing `':'` makes the key-string check miss
a pre-existing `co2_g` record, so a computed duplicate for its triple is
added (two records with the triple `(a, b, co2_g)` below).  With
`override=true`, only the first of two duplicate pre-existing `co2_g`
records is spliced out, so a pre-existing record for the triple survives
next to the computed one (again two records with the triple). -/
theorem C4_counterexample :
    ((addDerivedMetrics
        [⟨("a").toList, ("b:c").toList, energyM, .num 10⟩,
         ⟨("a").toList, ("b").toList, co2M, .num 5⟩] DEFAULT_FACTORS false).filter
      (tripleP (("a").toList) (("b").toList) co2M)).length = 2 ∧
    ((addDerivedMetrics
        [⟨("a").toList, ("p").toList, co2M, .num 1⟩,
         ⟨("a").toList, ("p").toList, co2M, .num 2⟩,
         ⟨("a").toList, ("p").toList, energyM, .num 10⟩] DEFAULT_FACTORS true).filter
      (tripleP (("a").toList) (("p").toList) co2M)).length = 2 := by
  decide

/-- C5 (amended: restricted to relations whose models and prompts contain no
`':'`, and subject to the override policy): for every pair with an energy
reading `e` and each derived kind not blocked (override set, or no
pre-existing record with that triple), the output contains the record
computed by the specification's formulas rounded to 3 decimals; conversely
every output record is an input record or such a computed record — in
particular pairs without an energy reading produce no derived metrics. -/
theorem C5_derived_value_formulas (d : List LongRow) (f : Factors) (o : Bool)
    (hnc : ∀ r ∈ d, ':' ∉ r.model ∧ ':' ∉ r.prompt) :
    (∀ mdl pr e, energyAt d mdl pr = some e →
        ∀ met ∈ trackedDerived,
          (o = true ∨ ¬ ∃ rr ∈ d, rr.model = mdl ∧ rr.prompt = pr ∧ rr.metric = met) →
          (⟨mdl, pr, met, round3 (derivedValueFor met f e)⟩ : LongRow) ∈
            addDerivedMetrics d f o) ∧
      (∀ a ∈ addDerivedMetrics d f o, a ∈ d ∨
        (a.metric ∈ trackedDerived ∧ ∃ e, energyAt d a.model a.prompt = some e ∧
          a.value = round3 (derivedValueFor a.metric f e))) := by
  constructor
  · intro mdl pr e he met hmet hblock
    obtain ⟨er, herd, hermet, hermdl, herpr⟩ := energyAt_some_row he
    have hmcol : ':' ∉ mdl := hermdl ▸ (hnc er herd).1
    have hpcol : ':' ∉ pr := herpr ▸ (hnc er herd).2
    have hkmem : (mdl ++ ':' :: pr) ∈ energyKeys d :=
      mem_energyKeys.mpr ⟨er, herd, hermet, by unfold keyOf; rw [hermdl, herpr]⟩
    have hsplitk : jsSplit ':' (mdl ++ ':' :: pr) = [mdl, pr] := by
      rw [jsSplit_append hmcol, jsSplit_no_sep hpcol]
    cases o with
    | true =>
      have hfil := addDerivedMetrics_true_filter (f := f) hnc hmet he
      have hmem : (⟨mdl, pr, met, round3 (derivedValueFor met f e)⟩ : LongRow) ∈
          (addDerivedMetrics d f true).filter (tripleP mdl pr met) := by
        rw [hfil]
        simp
      exact (List.mem_filter.mp hmem).1
    | false =>
      rcases hblock with hfalse | hnoex
      · cases hfalse
      rw [addDerivedMetrics_false_eq]
      apply List.mem_append.mpr
      right
      rw [List.mem_flatten]
      refine ⟨_, List.mem_map.mpr
        ⟨(mdl ++ ':' :: pr, energyValAtKey d (mdl ++ ':' :: pr)), ?_, rfl⟩, ?_⟩
      · rw [energyFold_eq]
        exact List.mem_map.mpr ⟨_, hkmem, rfl⟩
      · rw [mem_pushesOf]
        refine ⟨(met, derivedValueFor met f (energyValAtKey d (mdl ++ ':' :: pr))),
          derivedValueFor_mem hmet, ?_, ?_⟩
        · intro hex
          rw [mem_existingFold] at hex
          obtain ⟨rr, hrr, htrr, hkeq⟩ := hex
          unfold metricKeyOf keyOf at hkeq
          obtain ⟨hq1, hq2, hq3⟩ :=
            join3_inj hmcol (hnc rr hrr).1 hpcol (hnc rr hrr).2 hkeq
          exact hnoex ⟨rr, hrr, hq1.symm, hq2.symm, hq3.symm⟩
        · have hval : energyValAtKey d (mdl ++ ':' :: pr) = e :=
            energyValAtKey_join (fun r hr => (hnc r hr).1) hmcol he
          rw [hsplitk, hval]
          rfl
  · intro a ha
    rcases mem_addDerivedMetrics ha with hd | ⟨k, hk, dm, hdm, rfl⟩
    · exact Or.inl hd
    · right
      obtain ⟨er, herd, hermet, rfl⟩ := mem_energyKeys.mp hk
      obtain ⟨htr, hdv⟩ := mem_derivedList hdm
      obtain ⟨ev, hev⟩ := energyAt_of_row herd hermet
      have hsplit := split_keyOf (hnc er herd).1 (hnc er herd).2
      have hval : energyValAtKey d (keyOf er) = ev :=
        energyValAtKey_join (fun r hr => (hnc r hr).1) (hnc er herd).1 hev
      have h0 : (jsSplit ':' (keyOf er)).getD 0 [] = er.model := by rw [hsplit]; rfl
      have hp1 : (jsSplit ':' (keyOf er)).getD 1 [] = er.prompt := by rw [hsplit]; rfl
      refine ⟨htr, ev, ?_, ?_⟩
      · show energyAt d ((jsSplit ':' (keyOf er)).getD 0 [])
          ((jsSplit ':' (keyOf er)).getD 1 []) = some ev
        rw [h0, hp1]
        exact hev
      · show round3 dm.2 = round3 (derivedValueFor dm.1 f ev)
        rw [hdv, hval]

/-- C5 counterexample: as stated over all relations the claim fails.  For a
model containing `':'` (`"a:b"` with prompt `"p"`): the pair `(a, b)` has no
energy reading yet receives derived records, while the pair that has the
reading receives none.  Moreover a pre-existing `co2_g` record suppresses
the computed value under the default `override=false`. -/
theorem C5_counterexample :
    (energyAt colonRelation (("a").toList) (("b").toList) = none ∧
        ∃ a ∈ addDerivedMetrics colonRelation DEFAULT_FACTORS false,
          a.model = ("a").toList ∧ a.prompt = ("b").toList ∧ a.metric = co2M) ∧
      (∀ a ∈ addDerivedMetrics colonRelation DEFAULT_FACTORS false,
        ¬(a.model = ("a:b").toList ∧ a.metric = co2M)) ∧
      (∀ a ∈ addDerivedMetrics exampleRelation DEFAULT_FACTORS false,
        a.metric = co2M → a.value = .num 5) := by
  decide

/-- C5 witness: one energy record of `10` Wh with the default factors — the
computed `co2_g` record is present, and the computed values are `3.0`,
`85.714` and `11.111`. -/
theorem C5_derived_value_formulas_witness :
    ((⟨("m").toList, ("p").toList, co2M,
        round3 (derivedValueFor co2M DEFAULT_FACTORS (.num 10))⟩ : LongRow) ∈
      addDerivedMetrics [⟨("m").toList, ("p").toList, energyM, .num 10⟩]
        DEFAULT_FACTORS false) ∧
      round3 (derivedValueFor co2M DEFAULT_FACTORS (.num 10)) = .num 3 ∧
      round3 (derivedValueFor ledMinutesM DEFAULT_FACTORS (.num 10)) =
        .num (85714 / 1000) ∧
      round3 (derivedValueFor onlinevideoM DEFAULT_FACTORS (.num 10)) =
        .num (11111 / 1000) := by
  refine ⟨(C5_derived_value_formulas
      [⟨("m").toList, ("p").toList, energyM, .num 10⟩] DEFAULT_FACTORS false
      (by decide)).1 (("m").toList) (("p").toList) (.num 10) (by decide) co2M
      (by decide) (Or.inr (by decide)), ?_, ?_, ?_⟩
  · simp [round3, derivedValueFor, jsMulQ, jsDivQ, jsRound, DEFAULT_FACTORS]
    have h : (round ((10 : ℚ) / 1000 * 300 * 1000) : ℤ) = 3000 :=
      round_int_eq (by norm_num) (by norm_num)
    rw [h]
    norm_num
  · simp +decide [round3, derivedValueFor, jsMulQ, jsDivQ, jsRound, DEFAULT_FACTORS]
    have h : (round ((10 : ℚ) / 7 * 60 * 1000) : ℤ) = 85714 :=
      round_int_eq (by norm_num) (by norm_num)
    rw [h]
    norm_num
  · simp +decide [round3, derivedValueFor, jsMulQ, jsDivQ, jsRound, DEFAULT_FACTORS]
    have h : (round ((10 : ℚ) / (9 / 10) * 1000) : ℤ) = 11111 :=
      round_int_eq (by norm_num) (by norm_num)
    rw [h]
    norm_num

end ComparIA
